import Mathlib

/-!
Verification of the schema-to-graph pipeline implemented in
src/all_agents_tutorials/data_scribe/discovery_agent.py, method
DiscoveryAgent.parseJson (lines 156-197).

The embedding has three layers, each translated directly from the source:

* the text extraction of line 157 (Python string slicing with find/rfind),
  modelled by pyFind, pyRfind, pySlice and extractPayload;
* the graph construction of lines 160-188 on a decoded, well-typed schema
  document (pass1Table/pass1Col, pass2Table/pass2Col, buildGraph), where
  networkx.Graph is modelled by an undirected graph value with deduplicated
  edges (addNode, addEdgeG) and the canonicalColumns dict by an association
  list with Python dict semantics (dictInsert, dictGet);
* the same construction on raw decoded JSON values (parseJsonData over Jval),
  which keeps Python's dynamic field accesses so that missing-key behaviour
  (KeyError) is observable.

Failures are modelled by Except PyError: the source has no error handling of
its own, so every failure surfaces as the underlying Python exception.
-/

/-- Python exceptions that the source code can raise while building the
graph: KeyError from a dict access with a missing key, TypeError from an
operation on a value of the wrong runtime type. -/
inductive PyError where
  | keyError (key : String)
  | typeError
  deriving Repr, DecidableEq

/-! ### Text extraction, line 157 -/

/-- Python str.find for a single character: index of the first occurrence,
or -1 when absent. -/
def pyFind (s : String) (c : Char) : Int :=
  match s.data.findIdx? (fun a => a == c) with
  | some i => (i : Int)
  | none => -1

/-- Python str.rfind for a single character: index of the last occurrence,
or -1 when absent. -/
def pyRfind (s : String) (c : Char) : Int :=
  match s.data.reverse.findIdx? (fun a => a == c) with
  | some i => (s.data.length - 1 - i : Int)
  | none => -1

/-- Clamp a (possibly negative) Python slice index to a list offset:
negative indices count from the end, and out-of-range indices are clamped. -/
def pyIndex (len : Nat) (i : Int) : Nat :=
  if i < 0 then ((len : Int) + i).toNat else min i.toNat len

/-- Python string slicing s[start:stop] with Python index semantics. -/
def pySlice (s : String) (start stop : Int) : String :=
  let a := pyIndex s.data.length start
  let b := pyIndex s.data.length stop
  String.mk ((s.data.drop a).take (b - a))

/-- Line 157: j = output_[output_.find('\n') + 1 : output_.rfind('\n')].
The substring between the first and the last newline; note that when the
text holds fewer than two newlines the slice still produces a string. -/
def extractPayload (output_ : String) : String :=
  pySlice output_ (pyFind output_ '\n' + 1) (pyRfind output_ '\n')

/-! ### The typed schema document (the shape parseJson expects after
json.loads succeeds and every record carries the accessed fields) -/

/-- One column record: columnName, columnType, isOptional and the nullable
foreignKeyReference holding a (table, column) pair. -/
structure ColumnDescriptor where
  columnName : String
  columnType : String
  isOptional : Bool
  foreignKeyReference : Option (String × String)
  deriving Repr, DecidableEq

/-- One table record: tableName and its ordered column list. -/
structure TableDescriptor where
  tableName : String
  columns : List ColumnDescriptor
  deriving Repr, DecidableEq

/-- The decoded document: an ordered list of tables. -/
abbrev SchemaDocument := List TableDescriptor

/-! ### The graph value (networkx.Graph as used by the source) -/

/-- Attributes attached to one node: lines 169 and 175-177 set tableName
on table nodes and columnName/columnType/isOptional on column nodes; a node
created implicitly by add_edge would carry no attributes (plain). -/
inductive NodeData where
  | plain
  | table (tableName : String)
  | column (columnName : String) (columnType : String) (isOptional : Bool)
  deriving Repr, DecidableEq

/-- An undirected networkx graph: nodes in insertion order with their
attributes, edges in insertion order as unordered pairs (deduplicated). -/
structure Graph where
  nodes : List (Nat × NodeData) := []
  edges : List (Nat × Nat) := []
  deriving Repr, DecidableEq

/-- Membership test for a node id. -/
def hasNode (G : Graph) (i : Nat) : Bool :=
  G.nodes.any (fun p => p.1 == i)

/-- Does the unordered pair q occur in the list of stored edges seen. -/
def pairMem (seen : List (Nat × Nat)) (q : Nat × Nat) : Bool :=
  seen.any (fun e => (e.1 == q.1 && e.2 == q.2) || (e.1 == q.2 && e.2 == q.1))

/-- Membership test for an undirected edge. -/
def hasEdge (G : Graph) (a b : Nat) : Bool :=
  pairMem G.edges (a, b)

/-- G.add_node(i) followed by the attribute assignments of the source:
a fresh node is appended, re-adding an existing id only updates its
attributes. -/
def addNode (G : Graph) (i : Nat) (d : NodeData) : Graph :=
  if hasNode G i then
    { G with nodes := G.nodes.map (fun p => if p.1 == i then (i, d) else p) }
  else
    { G with nodes := G.nodes ++ [(i, d)] }

/-- G.add_edge(a, b) on an undirected networkx graph: missing endpoints are
created as attribute-less nodes, and an edge already present (in either
orientation) is not duplicated. -/
def addEdgeG (G : Graph) (a b : Nat) : Graph :=
  let G1 := if hasNode G a then G else { G with nodes := G.nodes ++ [(a, NodeData.plain)] }
  let G2 := if hasNode G1 b then G1 else { G1 with nodes := G1.nodes ++ [(b, NodeData.plain)] }
  if hasEdge G2 a b then G2 else { G2 with edges := G2.edges ++ [(a, b)] }

/-! ### Python dict (canonicalColumns and labeldict) -/

/-- Python dict assignment d[k] = v on a string-keyed dict: replaces the
value of an existing key in place, otherwise appends the new entry. -/
def dictInsert (d : List (String × Nat)) (k : String) (v : Nat) : List (String × Nat) :=
  if d.any (fun p => p.1 == k) then
    d.map (fun p => if p.1 == k then (k, v) else p)
  else d ++ [(k, v)]

/-- Python dict subscript d[k]: the stored value, or KeyError. -/
def dictGet (d : List (String × Nat)) (k : String) : Except PyError Nat :=
  match d.find? (fun p => p.1 == k) with
  | some p => Except.ok p.2
  | none => Except.error (PyError.keyError k)

/-- Total variant of dictGet used only to state results (0 when absent). -/
def lookup0 (d : List (String × Nat)) (k : String) : Nat :=
  match d.find? (fun p => p.1 == k) with
  | some p => p.2
  | none => 0

/-- Key-membership test for the dict. -/
def hasKey (d : List (String × Nat)) (k : String) : Bool :=
  (d.find? (fun p => p.1 == k)).isSome

/-- Same dict assignment for the Nat-keyed labeldict. -/
def labelInsert (d : List (Nat × String)) (k : Nat) (v : String) : List (Nat × String) :=
  if d.any (fun p => p.1 == k) then
    d.map (fun p => if p.1 == k then (k, v) else p)
  else d ++ [(k, v)]

/-! ### Pass 1 and pass 2 of parseJson, lines 160-188, on typed input -/

/-- The local variables of parseJson while pass 1 runs: the graph G, the two
id counters nodeIds/columnIds, labeldict, color_map, canonicalColumns. -/
structure BState where
  G : Graph
  nodeIds : Nat
  columnIds : Nat
  labeldict : List (Nat × String)
  color_map : List String
  canonicalColumns : List (String × Nat)
  deriving Repr

/-- Lines 172-181, one iteration of the inner column loop of pass 1:
allocate the next column id, add the column node with its attributes,
record label and color, register the concatenated canonical key
(tableName + columnName), and add the containment edge from the current
table node (nodeIds) to the new column node. -/
def pass1Col (tableName : String) (st : BState) (column : ColumnDescriptor) : BState :=
  let columnIds := st.columnIds + 1
  let G1 := addNode st.G columnIds
    (NodeData.column column.columnName column.columnType column.isOptional)
  let labeldict := labelInsert st.labeldict columnIds column.columnName
  let color_map := st.color_map ++ ["green"]
  let canonicalColumns :=
    dictInsert st.canonicalColumns (tableName ++ column.columnName) columnIds
  let G2 := addEdgeG G1 st.nodeIds columnIds
  { st with
    G := G2
    columnIds := columnIds
    labeldict := labeldict
    color_map := color_map
    canonicalColumns := canonicalColumns }

/-- Lines 166-181, one iteration of the outer table loop of pass 1:
allocate the next table id, add the table node, record label and color,
then run the column loop. -/
def pass1Table (st : BState) (table : TableDescriptor) : BState :=
  let nodeIds := st.nodeIds + 1
  let G1 := addNode st.G nodeIds (NodeData.table table.tableName)
  let labeldict := labelInsert st.labeldict nodeIds table.tableName
  let color_map := st.color_map ++ ["red"]
  let st1 := { st with
               G := G1
               nodeIds := nodeIds
               labeldict := labeldict
               color_map := color_map }
  table.columns.foldl (pass1Col table.tableName) st1

/-- Lines 160-165: empty graph, nodeIds = 0, columnIds = len(data) + 1,
empty labeldict, color_map, canonicalColumns. -/
def initState (data : SchemaDocument) : BState :=
  { G := {}, nodeIds := 0, columnIds := data.length + 1,
    labeldict := [], color_map := [], canonicalColumns := [] }

/-- The whole of pass 1 over the document. -/
def pass1 (data : SchemaDocument) : BState :=
  data.foldl pass1Table (initState data)

/-- Lines 185-188, handling of one column in pass 2: when
foreignKeyReference is not null, look up the concatenated canonical keys of
the referencing column and of the referenced column (a missing key is a
KeyError) and add the reference edge between the two resolved nodes. -/
def pass2Col (canonicalColumns : List (String × Nat)) (tableName : String)
    (G : Graph) (column : ColumnDescriptor) : Except PyError Graph :=
  match column.foreignKeyReference with
  | none => Except.ok G
  | some fk =>
    let this_column := tableName ++ column.columnName
    let reference_column_ := fk.1 ++ fk.2
    match dictGet canonicalColumns this_column with
    | Except.error e => Except.error e
    | Except.ok a =>
      match dictGet canonicalColumns reference_column_ with
      | Except.error e => Except.error e
      | Except.ok b => Except.ok (addEdgeG G a b)

/-- Lines 183-188, the column loop of pass 2 for one table. -/
def pass2Table (canonicalColumns : List (String × Nat)) (G : Graph)
    (table : TableDescriptor) : Except PyError Graph :=
  table.columns.foldlM (pass2Col canonicalColumns table.tableName) G

/-- Lines 183-188, the table loop of pass 2. -/
def pass2 (canonicalColumns : List (String × Nat)) (G : Graph)
    (data : SchemaDocument) : Except PyError Graph :=
  data.foldlM (pass2Table canonicalColumns) G

/-- Lines 160-188: the graph construction of parseJson on a decoded
document (pass 1 then pass 2); the returned graph is the G of line 197. -/
def buildGraph (data : SchemaDocument) : Except PyError Graph :=
  let st := pass1 data
  pass2 st.canonicalColumns st.G data

/-! ### Derived counting and classification helpers -/

/-- Total number of columns in the document. -/
def totalCols (data : SchemaDocument) : Nat :=
  (data.map (fun t => t.columns.length)).sum

/-- The document's columns in document order, each with its table name. -/
def flatColumns (data : SchemaDocument) : List (String × ColumnDescriptor) :=
  data.flatMap (fun t => t.columns.map (fun c => (t.tableName, c)))

/-- The concatenated canonical keys of the document, in document order. -/
def keyList (data : SchemaDocument) : List String :=
  (flatColumns data).map (fun p => p.1 ++ p.2.columnName)

/-- Number of non-null foreignKeyReference entries. -/
def fkCount (data : SchemaDocument) : Nat :=
  ((flatColumns data).filter (fun p => p.2.foreignKeyReference.isSome)).length

/-- A Contains edge of a graph built over T tables: it touches a table node
(table ids are 1..T, column ids are at least T+2). -/
def isContainsEdge (T : Nat) (e : Nat × Nat) : Bool :=
  e.1 ≤ T || e.2 ≤ T

/-- A References edge of a graph built over T tables: both endpoints are
column nodes. -/
def isRefEdge (T : Nat) (e : Nat × Nat) : Bool :=
  T + 1 < e.1 && T + 1 < e.2

/-! ### The same construction on raw decoded JSON values

parseJson runs directly on the value returned by json.loads, so a payload
whose records miss required fields fails only when (and where) the code
first subscripts the missing key. This layer keeps those dynamic accesses.
Values are modelled by Jval; the string fields the code concatenates are
required to be strings (concatenation of two non-strings is modelled as
TypeError; the documents the claims evaluate use string fields). -/

/-- A decoded JSON value as returned by json.loads. -/
inductive Jval where
  | null
  | bool (b : Bool)
  | str (s : String)
  | num (n : Int)
  | arr (l : List Jval)
  | obj (l : List (String × Jval))

/-- Is this Python's None. -/
def Jval.isNull : Jval → Bool
  | .null => true
  | _ => false

/-- Python subscript v[k] with a string key: an object yields the field
value or KeyError, any other value yields TypeError. -/
def jGet : Jval → String → Except PyError Jval
  | .obj kvs, k =>
    match kvs.find? (fun p => p.1 == k) with
    | some p => Except.ok p.2
    | none => Except.error (PyError.keyError k)
  | _, _ => Except.error PyError.typeError

/-- Python iteration over a decoded value: a list yields its elements, a
dict its keys, a string its characters; other values raise TypeError. -/
def jElems : Jval → Except PyError (List Jval)
  | .arr l => Except.ok l
  | .obj kvs => Except.ok (kvs.map (fun p => Jval.str p.1))
  | .str s => Except.ok (s.data.map (fun c => Jval.str (String.mk [c])))
  | _ => Except.error PyError.typeError

/-- Python + on the two decoded field values, as used for the canonical
key: string concatenation when both are strings (the shape the schema
contract expects), TypeError otherwise. -/
def jConcat : Jval → Jval → Except PyError String
  | .str a, .str b => Except.ok (a ++ b)
  | _, _ => Except.error PyError.typeError

/-- A networkx graph whose node attributes are raw attribute dicts. -/
structure JGraph where
  nodes : List (Nat × List (String × Jval)) := []
  edges : List (Nat × Nat) := []

/-- G.add_node(i): append the node with an empty attribute dict if new. -/
def jAddNode (G : JGraph) (i : Nat) : JGraph :=
  if G.nodes.any (fun p => p.1 == i) then G
  else { G with nodes := G.nodes ++ [(i, [])] }

/-- Assignment to one attribute of one node, G.nodes[i][k] = v. -/
def jSetAttr (G : JGraph) (i : Nat) (k : String) (v : Jval) : JGraph :=
  { G with nodes := G.nodes.map (fun p =>
      if p.1 == i then
        (p.1, if p.2.any (fun q => q.1 == k)
              then p.2.map (fun q => if q.1 == k then (k, v) else q)
              else p.2 ++ [(k, v)])
      else p) }

/-- G.add_edge(a, b) on the raw graph, same semantics as addEdgeG. -/
def jAddEdge (G : JGraph) (a b : Nat) : JGraph :=
  let G1 := if G.nodes.any (fun p => p.1 == a) then G
            else { G with nodes := G.nodes ++ [(a, [])] }
  let G2 := if G1.nodes.any (fun p => p.1 == b) then G1
            else { G1 with nodes := G1.nodes ++ [(b, [])] }
  if pairMem G2.edges (a, b) then G2
  else { G2 with edges := G2.edges ++ [(a, b)] }

/-- Nat-keyed dict assignment for the raw labeldict. -/
def jLabelInsert (d : List (Nat × Jval)) (k : Nat) (v : Jval) : List (Nat × Jval) :=
  if d.any (fun p => p.1 == k) then
    d.map (fun p => if p.1 == k then (k, v) else p)
  else d ++ [(k, v)]

/-- The parseJson local variables over raw values. -/
structure JState where
  G : JGraph
  nodeIds : Nat
  columnIds : Nat
  labeldict : List (Nat × Jval)
  color_map : List String
  canonicalColumns : List (String × Nat)

/-- Lines 172-181 on a raw column record: every required field is reached
through a dict subscript exactly where the source reads it, so a missing
columnName/columnType/isOptional key surfaces as that KeyError. -/
def jPass1Col (tn : Jval) (st : JState) (column : Jval) : Except PyError JState := do
  let columnIds := st.columnIds + 1
  let G := jAddNode st.G columnIds
  let cn ← jGet column "columnName"
  let G := jSetAttr G columnIds "columnName" cn
  let ct ← jGet column "columnType"
  let G := jSetAttr G columnIds "columnType" ct
  let opt ← jGet column "isOptional"
  let G := jSetAttr G columnIds "isOptional" opt
  let labeldict := jLabelInsert st.labeldict columnIds cn
  let color_map := st.color_map ++ ["green"]
  let key ← jConcat tn cn
  let canonicalColumns := dictInsert st.canonicalColumns key columnIds
  let G := jAddEdge G st.nodeIds columnIds
  pure { st with
         G := G
         columnIds := columnIds
         labeldict := labeldict
         color_map := color_map
         canonicalColumns := canonicalColumns }

/-- Lines 166-181 on a raw table record: tableName and columns are read
through dict subscripts, and the columns value is iterated. -/
def jPass1Table (st : JState) (table : Jval) : Except PyError JState := do
  let nodeIds := st.nodeIds + 1
  let G := jAddNode st.G nodeIds
  let tn ← jGet table "tableName"
  let G := jSetAttr G nodeIds "tableName" tn
  let labeldict := jLabelInsert st.labeldict nodeIds tn
  let color_map := st.color_map ++ ["red"]
  let cols ← jGet table "columns"
  let colList ← jElems cols
  colList.foldlM (jPass1Col tn)
    { st with
      G := G
      nodeIds := nodeIds
      labeldict := labeldict
      color_map := color_map }

/-- Lines 185-188 on a raw column record: the foreignKeyReference key is
subscripted before the null test, so its absence is a KeyError even though
pass 1 never read it. -/
def jPass2Col (canonicalColumns : List (String × Nat)) (table : Jval)
    (G : JGraph) (column : Jval) : Except PyError JGraph := do
  let fk ← jGet column "foreignKeyReference"
  if fk.isNull then pure G
  else do
    let tn ← jGet table "tableName"
    let cn ← jGet column "columnName"
    let this_column ← jConcat tn cn
    let rt ← jGet fk "table"
    let rc ← jGet fk "column"
    let reference_column_ ← jConcat rt rc
    match dictGet canonicalColumns this_column with
    | Except.error e => Except.error e
    | Except.ok a =>
      match dictGet canonicalColumns reference_column_ with
      | Except.error e => Except.error e
      | Except.ok b => pure (jAddEdge G a b)

/-- Lines 183-188 on a raw table record. -/
def jPass2Table (canonicalColumns : List (String × Nat)) (G : JGraph)
    (table : Jval) : Except PyError JGraph := do
  let cols ← jGet table "columns"
  let colList ← jElems cols
  colList.foldlM (jPass2Col canonicalColumns table) G

/-- Lines 158-188 applied to the value json.loads returned: iterate the
payload (TypeError when it is not iterable), run pass 1 with
columnIds = len(data) + 1, then pass 2. -/
def parseJsonData (data : Jval) : Except PyError JGraph := do
  let tables ← jElems data
  let st ← tables.foldlM jPass1Table
    { G := {}
      nodeIds := 0
      columnIds := tables.length + 1
      labeldict := []
      color_map := []
      canonicalColumns := [] }
  tables.foldlM (jPass2Table st.canonicalColumns) st.G

/-! ### Closed forms for the state produced by pass 1

These recursive lists describe, per suffix of the document and per counter
values, exactly the nodes, edges and registry insertions that the loops of
pass 1 perform; the characterization theorems below prove that the folds
above produce them. -/

/-- Column nodes created from one column list when columnIds = m. -/
def colNodes (m : Nat) : List ColumnDescriptor → List (Nat × NodeData)
  | [] => []
  | c :: cs =>
    (m + 1, NodeData.column c.columnName c.columnType c.isOptional) :: colNodes (m + 1) cs

/-- All nodes created from a document suffix when nodeIds = n, columnIds = m. -/
def nodesSpec (n m : Nat) : SchemaDocument → List (Nat × NodeData)
  | [] => []
  | t :: ts =>
    (n + 1, NodeData.table t.tableName) ::
      (colNodes m t.columns ++ nodesSpec (n + 1) (m + t.columns.length) ts)

/-- Containment edges created from one column list for table node tid. -/
def colEdges (tid m : Nat) : List ColumnDescriptor → List (Nat × Nat)
  | [] => []
  | _ :: cs => (tid, m + 1) :: colEdges tid (m + 1) cs

/-- All containment edges created from a document suffix. -/
def edgesSpec (n m : Nat) : SchemaDocument → List (Nat × Nat)
  | [] => []
  | t :: ts => colEdges (n + 1) m t.columns ++ edgesSpec (n + 1) (m + t.columns.length) ts

/-- Registry insertions performed for one column list of table tname. -/
def colKeys (tname : String) (m : Nat) : List ColumnDescriptor → List (String × Nat)
  | [] => []
  | c :: cs => (tname ++ c.columnName, m + 1) :: colKeys tname (m + 1) cs

/-- Registry insertions performed over a document suffix, in order. -/
def canonSpec (m : Nat) : SchemaDocument → List (String × Nat)
  | [] => []
  | t :: ts => colKeys t.tableName m t.columns ++ canonSpec (m + t.columns.length) ts

/-- Replay a list of dict assignments. -/
def canonFold (d : List (String × Nat)) (l : List (String × Nat)) : List (String × Nat) :=
  l.foldl (fun d p => dictInsert d p.1 p.2) d

/-- Column nodes indexed along the flattened column list. -/
def colNodesF (m : Nat) : List (String × ColumnDescriptor) → List (Nat × NodeData)
  | [] => []
  | p :: ps =>
    (m + 1, NodeData.column p.2.columnName p.2.columnType p.2.isOptional) :: colNodesF (m + 1) ps

/-- Registry insertions indexed along the flattened column list. -/
def canonOfFlat (m : Nat) : List (String × ColumnDescriptor) → List (String × Nat)
  | [] => []
  | p :: ps => (p.1 ++ p.2.columnName, m + 1) :: canonOfFlat (m + 1) ps

/-- Keep the first occurrence of every unordered pair not already in seen:
exactly which of the pass 2 add_edge calls extend the edge list. -/
def undirDedup (seen : List (Nat × Nat)) : List (Nat × Nat) → List (Nat × Nat)
  | [] => []
  | q :: qs =>
    if pairMem seen q then undirDedup seen qs
    else q :: undirDedup (seen ++ [q]) qs

/-- Replay a list of add_edge calls. -/
def edgeFold (G : Graph) (l : List (Nat × Nat)) : Graph :=
  l.foldl (fun g q => addEdgeG g q.1 q.2) G

/-- The (referencing node, referenced node) pair pass 2 resolves for every
column with a non-null foreignKeyReference, in document order. -/
def resPairsOf (canon : List (String × Nat)) (l : List (String × ColumnDescriptor)) :
    List (Nat × Nat) :=
  l.filterMap (fun p => p.2.foreignKeyReference.map (fun fk =>
    (lookup0 canon (p.1 ++ p.2.columnName), lookup0 canon (fk.1 ++ fk.2))))

/-- Pass 2 flattened over the columns of the whole document. -/
def pass2Flat (canon : List (String × Nat)) (G : Graph)
    (l : List (String × ColumnDescriptor)) : Except PyError Graph :=
  l.foldlM (fun g p => pass2Col canon p.1 g p.2) G

/-- Both canonical keys a column's pass 2 step subscripts are present. -/
def colReady (canon : List (String × Nat)) (p : String × ColumnDescriptor) : Prop :=
  ∀ fk, p.2.foreignKeyReference = some fk →
    hasKey canon (p.1 ++ p.2.columnName) = true ∧ hasKey canon (fk.1 ++ fk.2) = true

/-! ### Concrete documents used to instantiate and to refute the claims -/

/-- One table, one plain column. -/
def w1doc : SchemaDocument := [⟨"t", [⟨"c", "int", false, none⟩]⟩]

/-- The graph parseJson builds for w1doc. -/
def w1G : Graph :=
  { nodes := [(1, NodeData.table "t"), (3, NodeData.column "c" "int" false)]
    edges := [(1, 3)] }

/-- A foreignKeyReference to a table absent from the document. -/
def c2doc : SchemaDocument := [⟨"users", [⟨"id", "int", false, some ("missing", "id")⟩]⟩]

/-- Two tables, the second without columns. -/
def w3doc : SchemaDocument := [⟨"a", [⟨"x", "int", false, none⟩]⟩, ⟨"b", []⟩]

/-- The graph parseJson builds for w3doc. -/
def w3G : Graph :=
  { nodes := [(1, NodeData.table "a"), (4, NodeData.column "x" "int" false),
              (2, NodeData.table "b")]
    edges := [(1, 4)] }

/-- A table record with no columns key. -/
def c5payloadA : Jval := Jval.arr [Jval.obj [("tableName", Jval.str "t")]]

/-- A column record with every key except foreignKeyReference. -/
def c5payloadB : Jval := Jval.arr [Jval.obj [("tableName", Jval.str "t"),
  ("columns", Jval.arr [Jval.obj [("columnName", Jval.str "c"),
    ("columnType", Jval.str "int"), ("isOptional", Jval.bool false)]])]]

/-- A payload that is not an array of records at all. -/
def c5payloadC : Jval := Jval.str "nj"

/-- Two columns of the same table with the same name, plus a reference to
that duplicated canonical key. -/
def c6doc : SchemaDocument :=
  [⟨"t", [⟨"c", "int", false, none⟩, ⟨"c", "text", true, none⟩,
          ⟨"d", "int", false, some ("t", "c")⟩]⟩]

/-- The graph parseJson builds for c6doc: the reference lands on node 4,
the second column named c. -/
def c6G : Graph :=
  { nodes := [(1, NodeData.table "t"), (3, NodeData.column "c" "int" false),
              (4, NodeData.column "c" "text" true), (5, NodeData.column "d" "int" false)]
    edges := [(1, 3), (1, 4), (1, 5), (5, 4)] }

/-- Distinct (table, column) pairs with equal concatenations:
("ab", "c") and ("a", "bc") both give key "abc". -/
def c7doc : SchemaDocument :=
  [⟨"ab", [⟨"c", "int", false, none⟩]⟩, ⟨"a", [⟨"bc", "int", false, none⟩]⟩]

/-- One table whose second column references the first. -/
def w7doc : SchemaDocument :=
  [⟨"t", [⟨"a", "int", false, none⟩, ⟨"b", "int", false, some ("t", "a")⟩]⟩]

/-- Two columns referencing each other: two non-null entries, one edge. -/
def c8doc : SchemaDocument :=
  [⟨"t", [⟨"a", "int", false, some ("t", "b")⟩, ⟨"b", "int", false, some ("t", "a")⟩]⟩]

/-- The graph parseJson builds for c8doc. -/
def c8G : Graph :=
  { nodes := [(1, NodeData.table "t"), (3, NodeData.column "a" "int" false),
              (4, NodeData.column "b" "int" false)]
    edges := [(1, 3), (1, 4), (3, 4)] }

/-- One table whose second column references the first. -/
def w8doc : SchemaDocument :=
  [⟨"u", [⟨"p", "int", false, none⟩, ⟨"q", "int", false, some ("u", "p")⟩]⟩]

/-- A forward reference: the first table's column references a column of
the second table. -/
def w9doc : SchemaDocument :=
  [⟨"a", [⟨"x", "int", false, some ("b", "y")⟩]⟩, ⟨"b", [⟨"y", "int", false, none⟩]⟩]

/-- One table, one column. -/
def w10doc : SchemaDocument := [⟨"m", [⟨"k", "int", true, none⟩]⟩]

/-- The graph parseJson builds for w10doc. -/
def w10G : Graph :=
  { nodes := [(1, NodeData.table "m"), (3, NodeData.column "k" "int" true)]
    edges := [(1, 3)] }

/-- The graph parseJson builds for w7doc. -/
def w7G : Graph :=
  { nodes := [(1, NodeData.table "t"), (3, NodeData.column "a" "int" false),
              (4, NodeData.column "b" "int" false)]
    edges := [(1, 3), (1, 4), (4, 3)] }

/-- The graph parseJson builds for w8doc. -/
def w8G : Graph :=
  { nodes := [(1, NodeData.table "u"), (3, NodeData.column "p" "int" false),
              (4, NodeData.column "q" "int" false)]
    edges := [(1, 3), (1, 4), (4, 3)] }

/-- Is this node a column node. -/
def isColNode (p : Nat × NodeData) : Bool :=
  match p.2 with
  | NodeData.column _ _ _ => true
  | _ => false

/-! ## Lemmas: graph primitives -/

theorem hasNode_iff {G : Graph} {i : Nat} :
    hasNode G i = true ↔ i ∈ G.nodes.map Prod.fst := by
  simp [hasNode, List.any_eq_true, List.mem_map, beq_iff_eq]

theorem addNode_fresh {G : Graph} {i : Nat} (h : hasNode G i = false) (d : NodeData) :
    addNode G i d = { G with nodes := G.nodes ++ [(i, d)] } := by
  simp [addNode, h]

theorem pairMem_append {l₁ l₂ : List (Nat × Nat)} {q : Nat × Nat} :
    pairMem (l₁ ++ l₂) q = (pairMem l₁ q || pairMem l₂ q) := by
  simp [pairMem, List.any_append]

theorem addEdgeG_existing {G : Graph} {a b : Nat}
    (ha : hasNode G a = true) (hb : hasNode G b = true) :
    addEdgeG G a b =
      if hasEdge G a b then G else { G with edges := G.edges ++ [(a, b)] } := by
  simp [addEdgeG, ha, hb]

theorem hasEdge_false_of_fresh {G : Graph} {a b : Nat}
    (hend : ∀ e ∈ G.edges, e.1 ∈ G.nodes.map Prod.fst ∧ e.2 ∈ G.nodes.map Prod.fst)
    (hb : b ∉ G.nodes.map Prod.fst) :
    hasEdge G a b = false := by
  simp only [hasEdge, pairMem, List.any_eq_true, not_exists]
  rw [Bool.eq_false_iff]
  intro hcon
  simp only [List.any_eq_true, Bool.or_eq_true, Bool.and_eq_true, beq_iff_eq] at hcon
  obtain ⟨e, he, hcase⟩ := hcon
  rcases hcase with ⟨-, h2⟩ | ⟨h1, -⟩
  · exact hb (h2 ▸ (hend e he).2)
  · exact hb (h1 ▸ (hend e he).1)

/-! ## Lemmas: dict primitives -/

theorem hasKey_eq_any {d : List (String × Nat)} {k : String} :
    hasKey d k = d.any (fun p => p.1 == k) := by
  induction d with
  | nil => rfl
  | cons p ps ih =>
    by_cases h : p.1 = k
    · simp [hasKey, List.find?, h]
    · have hb : (p.1 == k) = false := by simpa using h
      simp [hasKey, List.find?, hb] at ih ⊢
      exact ih

theorem dictGet_of_hasKey {d : List (String × Nat)} {k : String}
    (h : hasKey d k = true) : dictGet d k = Except.ok (lookup0 d k) := by
  unfold hasKey at h
  unfold dictGet lookup0
  cases hf : d.find? (fun p => p.1 == k) with
  | none => rw [hf] at h; simp at h
  | some p => rfl

theorem dictGet_ok_facts {d : List (String × Nat)} {k : String} {v : Nat}
    (h : dictGet d k = Except.ok v) :
    hasKey d k = true ∧ lookup0 d k = v ∧ (k, v) ∈ d := by
  unfold dictGet at h
  cases hf : d.find? (fun p => p.1 == k) with
  | none => rw [hf] at h; exact absurd h (by simp)
  | some p =>
    rw [hf] at h
    have hv : p.2 = v := by simpa using h
    have hmem : p ∈ d := List.mem_of_find?_eq_some hf
    have hk : p.1 = k := by
      have := List.find?_some hf
      simpa using this
    refine ⟨by simp [hasKey, hf], by simp [lookup0, hf, hv], ?_⟩
    have : p = (k, v) := by
      cases p; simp_all
    exact this ▸ hmem

theorem mem_dictInsert {d : List (String × Nat)} {k : String} {v : Nat} {q : String × Nat}
    (h : q ∈ dictInsert d k v) : q ∈ d ∨ q = (k, v) := by
  unfold dictInsert at h
  by_cases hany : d.any (fun p => p.1 == k)
  · rw [if_pos hany] at h
    obtain ⟨p, hp, hq⟩ := List.mem_map.mp h
    by_cases hpk : p.1 = k
    · right
      simp [hpk] at hq
      exact hq.symm
    · left
      simp [hpk] at hq
      exact hq ▸ hp
  · rw [if_neg hany] at h
    rcases List.mem_append.mp h with h1 | h2
    · exact Or.inl h1
    · exact Or.inr (by simpa using h2)

theorem hasKey_dictInsert_self {d : List (String × Nat)} {k : String} {v : Nat} :
    hasKey (dictInsert d k v) k = true := by
  rw [hasKey_eq_any]
  unfold dictInsert
  by_cases hany : d.any (fun p => p.1 == k)
  · rw [if_pos hany]
    simp only [List.any_eq_true] at hany ⊢
    obtain ⟨p, hp, hpk⟩ := hany
    exact ⟨(k, v), List.mem_map.mpr ⟨p, hp, by simp [hpk]⟩, by simp⟩
  · rw [if_neg hany]
    simp

theorem hasKey_dictInsert_mono {d : List (String × Nat)} {k k' : String} {v : Nat}
    (h : hasKey d k' = true) : hasKey (dictInsert d k v) k' = true := by
  rw [hasKey_eq_any] at h ⊢
  unfold dictInsert
  simp only [List.any_eq_true, beq_iff_eq] at h
  obtain ⟨p, hp, hpk⟩ := h
  by_cases hany : d.any (fun p => p.1 == k)
  · rw [if_pos hany]
    simp only [List.any_eq_true, beq_iff_eq]
    by_cases hk : p.1 = k
    · exact ⟨(k, v), List.mem_map.mpr ⟨p, hp, by simp [hk]⟩, by rw [← hpk, hk]⟩
    · exact ⟨p, List.mem_map.mpr ⟨p, hp, by simp [hk]⟩, hpk⟩
  · rw [if_neg hany]
    simp only [List.any_eq_true, beq_iff_eq]
    exact ⟨p, List.mem_append_left _ hp, hpk⟩

theorem find?_dictInsert_self (d : List (String × Nat)) (k : String) (v : Nat) :
    (dictInsert d k v).find? (fun p => p.1 == k) = some (k, v) := by
  unfold dictInsert
  by_cases hany : d.any (fun p => p.1 == k)
  · rw [if_pos hany]
    induction d with
    | nil => simp at hany
    | cons p ps ih =>
      by_cases hpk : p.1 = k
      · rw [List.map_cons, if_pos (show (p.1 == k) = true by simpa using hpk)]
        exact List.find?_cons_of_pos (p := fun q => q.1 == k) (a := ((k, v) : String × Nat))
          _ (by simp)
      · rw [List.map_cons, if_neg (show ¬(p.1 == k) = true by simpa using hpk)]
        rw [List.find?_cons_of_neg (p := fun q => q.1 == k) (a := p) _ (by simpa using hpk)]
        apply ih
        simpa [List.any_cons, show (p.1 == k) = false by simpa using hpk] using hany
  · rw [if_neg hany]
    induction d with
    | nil =>
      rw [List.nil_append]
      exact List.find?_cons_of_pos (p := fun q => q.1 == k) (a := ((k, v) : String × Nat))
        _ (by simp)
    | cons p ps ih =>
      simp only [List.any_cons, Bool.or_eq_true, not_or] at hany
      rw [List.cons_append,
        List.find?_cons_of_neg (p := fun q => q.1 == k) (a := p) _ hany.1]
      exact ih (by simpa using hany.2)

theorem dictGet_dictInsert_self {d : List (String × Nat)} {k : String} {v : Nat} :
    dictGet (dictInsert d k v) k = Except.ok v := by
  unfold dictGet
  rw [find?_dictInsert_self]

theorem find?_dictInsert_ne (d : List (String × Nat)) {k k' : String} (v : Nat)
    (h : k' ≠ k) :
    (dictInsert d k v).find? (fun p => p.1 == k') = d.find? (fun p => p.1 == k') := by
  have hkk : ¬((((k, v) : String × Nat)).1 == k') = true := by
    simp only [beq_iff_eq]
    exact fun hc => h hc.symm
  unfold dictInsert
  by_cases hany : d.any (fun p => p.1 == k)
  · rw [if_pos hany]
    clear hany
    induction d with
    | nil => simp
    | cons p ps ih =>
      by_cases hpk : p.1 = k
      · rw [List.map_cons, if_pos (show (p.1 == k) = true by simpa using hpk)]
        rw [List.find?_cons_of_neg (p := fun q => q.1 == k') (a := ((k, v) : String × Nat))
          _ hkk]
        rw [List.find?_cons_of_neg (p := fun q => q.1 == k') (a := p) _ (by
          simp only [beq_iff_eq]
          intro hc
          exact h (by rw [← hc, hpk]))]
        exact ih
      · rw [List.map_cons, if_neg (show ¬(p.1 == k) = true by simpa using hpk)]
        cases hc : (p.1 == k') with
        | true =>
          rw [List.find?_cons_of_pos (p := fun q => q.1 == k') (a := p) _ hc,
            List.find?_cons_of_pos (p := fun q => q.1 == k') (a := p) _ hc]
        | false =>
          rw [List.find?_cons_of_neg (p := fun q => q.1 == k') (a := p) _ (by simp [hc]),
            List.find?_cons_of_neg (p := fun q => q.1 == k') (a := p) _ (by simp [hc])]
          exact ih
  · rw [if_neg hany]
    induction d with
    | nil =>
      rw [List.nil_append,
        List.find?_cons_of_neg (p := fun q => q.1 == k') (a := ((k, v) : String × Nat))
          _ hkk]
    | cons p ps ih =>
      simp only [List.any_cons, Bool.or_eq_true, not_or] at hany
      rw [List.cons_append]
      cases hc : (p.1 == k') with
      | true =>
        rw [List.find?_cons_of_pos (p := fun q => q.1 == k') (a := p) _ hc,
          List.find?_cons_of_pos (p := fun q => q.1 == k') (a := p) _ hc]
      | false =>
        rw [List.find?_cons_of_neg (p := fun q => q.1 == k') (a := p) _ (by simp [hc]),
          List.find?_cons_of_neg (p := fun q => q.1 == k') (a := p) _ (by simp [hc])]
        exact ih (by simpa using hany.2)

theorem dictGet_dictInsert_ne {d : List (String × Nat)} {k k' : String} {v : Nat}
    (h : k' ≠ k) : dictGet (dictInsert d k v) k' = dictGet d k' := by
  unfold dictGet
  rw [find?_dictInsert_ne d v h]

/-! ## Lemmas: replaying dict assignments -/

theorem canonFold_cons (d : List (String × Nat)) (p : String × Nat)
    (l : List (String × Nat)) :
    canonFold d (p :: l) = canonFold (dictInsert d p.1 p.2) l := rfl

theorem canonFold_append (d l₁ l₂ : List (String × Nat)) :
    canonFold d (l₁ ++ l₂) = canonFold (canonFold d l₁) l₂ := by
  simp [canonFold, List.foldl_append]

theorem mem_canonFold {q : String × Nat} {l d : List (String × Nat)}
    (h : q ∈ canonFold d l) : q ∈ d ∨ q ∈ l := by
  induction l generalizing d with
  | nil => exact Or.inl h
  | cons p ps ih =>
    rw [canonFold_cons] at h
    rcases ih h with h1 | h2
    · rcases mem_dictInsert h1 with h3 | h4
      · exact Or.inl h3
      · right
        rw [h4]
        exact List.mem_cons_self _ _
    · exact Or.inr (List.mem_cons_of_mem _ h2)

theorem hasKey_canonFold_mono {d : List (String × Nat)} {k : String}
    {l : List (String × Nat)} (h : hasKey d k = true) :
    hasKey (canonFold d l) k = true := by
  induction l generalizing d with
  | nil => exact h
  | cons p ps ih =>
    rw [canonFold_cons]
    exact ih (hasKey_dictInsert_mono h)

theorem hasKey_canonFold_of_mem {l : List (String × Nat)} {k : String}
    (h : k ∈ l.map Prod.fst) (d : List (String × Nat)) :
    hasKey (canonFold d l) k = true := by
  induction l generalizing d with
  | nil => simp at h
  | cons p ps ih =>
    rw [canonFold_cons]
    by_cases hk : k = p.1
    · subst hk
      exact hasKey_canonFold_mono hasKey_dictInsert_self
    · have h2 : k ∈ ps.map Prod.fst := by
        rcases List.mem_map.mp h with ⟨q, hq, rfl⟩
        rcases List.mem_cons.mp hq with h3 | h4
        · exact absurd (by rw [h3]) hk
        · exact List.mem_map.mpr ⟨q, h4, rfl⟩
      exact ih h2 _

theorem dictGet_canonFold_not_mem {l : List (String × Nat)} {k : String}
    (h : k ∉ l.map Prod.fst) (d : List (String × Nat)) :
    dictGet (canonFold d l) k = dictGet d k := by
  induction l generalizing d with
  | nil => rfl
  | cons p ps ih =>
    have h1 : k ≠ p.1 := fun hc => h (by simp [hc])
    have h2 : k ∉ ps.map Prod.fst := fun hc => h (by
      exact List.mem_map.mpr (by
        rcases List.mem_map.mp hc with ⟨q, hq, rfl⟩
        exact ⟨q, List.mem_cons_of_mem _ hq, rfl⟩))
    rw [canonFold_cons, ih h2, dictGet_dictInsert_ne h1]

theorem dictGet_canonFold_nodup {l : List (String × Nat)} {k : String} {v : Nat}
    (hnd : (l.map Prod.fst).Nodup) (hmem : (k, v) ∈ l) (d : List (String × Nat)) :
    dictGet (canonFold d l) k = Except.ok v := by
  induction l generalizing d with
  | nil => simp at hmem
  | cons p ps ih =>
    rw [canonFold_cons]
    rcases List.mem_cons.mp hmem with h1 | h2
    · have hk : p.1 = k := by rw [← h1]
      have hv : p.2 = v := by rw [← h1]
      have hnotin : k ∉ ps.map Prod.fst := by
        rw [← hk]
        exact (List.nodup_cons.mp (by simpa using hnd)).1
      rw [dictGet_canonFold_not_mem hnotin, ← hk, ← hv]
      exact dictGet_dictInsert_self
    · exact ih (List.nodup_cons.mp (by simpa using hnd)).2 h2 _

/-! ## Lemmas: the closed-form lists -/

theorem totalCols_cons (t : TableDescriptor) (ts : SchemaDocument) :
    totalCols (t :: ts) = t.columns.length + totalCols ts := by
  simp [totalCols]

theorem flatColumns_cons (t : TableDescriptor) (ts : SchemaDocument) :
    flatColumns (t :: ts) = t.columns.map (fun c => (t.tableName, c)) ++ flatColumns ts := by
  simp [flatColumns]

theorem flatColumns_length (ts : SchemaDocument) :
    (flatColumns ts).length = totalCols ts := by
  induction ts with
  | nil => rfl
  | cons t ts ih => simp [flatColumns_cons, ih, totalCols_cons]

theorem colNodes_length (m : Nat) (cs : List ColumnDescriptor) :
    (colNodes m cs).length = cs.length := by
  induction cs generalizing m with
  | nil => rfl
  | cons c cs ih => simp [colNodes, ih]

theorem colNodes_bound {m : Nat} {cs : List ColumnDescriptor} {p : Nat × NodeData}
    (h : p ∈ colNodes m cs) :
    (m + 1 ≤ p.1 ∧ p.1 ≤ m + cs.length) ∧ ∃ x y z, p.2 = NodeData.column x y z := by
  induction cs generalizing m with
  | nil => simp [colNodes] at h
  | cons c cs ih =>
    rcases List.mem_cons.mp h with h1 | h2
    · rw [h1]
      exact ⟨⟨Nat.le_refl _, by simp⟩, _, _, _, rfl⟩
    · obtain ⟨⟨h3, h4⟩, h5⟩ := ih h2
      exact ⟨⟨by omega, by simp only [List.length_cons]; omega⟩, h5⟩

theorem colNodes_complete {m v : Nat} {cs : List ColumnDescriptor}
    (h1 : m + 1 ≤ v) (h2 : v ≤ m + cs.length) :
    v ∈ (colNodes m cs).map Prod.fst := by
  induction cs generalizing m with
  | nil => simp only [List.length_nil, Nat.add_zero] at h2; omega
  | cons c cs ih =>
    by_cases hv : v = m + 1
    · simp [colNodes, hv]
    · have hmem := ih (m := m + 1) (by omega)
        (by simp only [List.length_cons] at h2; omega)
      simp only [colNodes, List.map_cons, List.mem_cons]
      exact Or.inr hmem

theorem colNodes_fst_nodup (m : Nat) (cs : List ColumnDescriptor) :
    ((colNodes m cs).map Prod.fst).Nodup := by
  induction cs generalizing m with
  | nil => simp [colNodes]
  | cons c cs ih =>
    simp only [colNodes, List.map_cons, List.nodup_cons]
    refine ⟨?_, ih (m + 1)⟩
    intro hc
    obtain ⟨p, hp, hfst⟩ := List.mem_map.mp hc
    obtain ⟨⟨hb1, -⟩, -⟩ := colNodes_bound hp
    omega

theorem nodesSpec_length (n m : Nat) (ts : SchemaDocument) :
    (nodesSpec n m ts).length = ts.length + totalCols ts := by
  induction ts generalizing n m with
  | nil => simp [nodesSpec, totalCols]
  | cons t ts ih =>
    simp only [nodesSpec, List.length_cons, List.length_append, colNodes_length,
      ih, totalCols_cons, List.length_cons]
    omega

theorem nodesSpec_kind_bound {n m : Nat} {ts : SchemaDocument} {p : Nat × NodeData}
    (h : p ∈ nodesSpec n m ts) :
    (∃ s, p.2 = NodeData.table s ∧ n + 1 ≤ p.1 ∧ p.1 ≤ n + ts.length) ∨
    (∃ x y z, p.2 = NodeData.column x y z ∧ m + 1 ≤ p.1 ∧ p.1 ≤ m + totalCols ts) := by
  induction ts generalizing n m with
  | nil => simp [nodesSpec] at h
  | cons t ts ih =>
    rcases List.mem_cons.mp h with h1 | h2
    · rw [h1]
      exact Or.inl ⟨t.tableName, rfl, Nat.le_refl _, by simp⟩
    · rcases List.mem_append.mp h2 with h3 | h4
      · obtain ⟨⟨hb1, hb2⟩, x, y, z, hk⟩ := colNodes_bound h3
        refine Or.inr ⟨x, y, z, hk, hb1, ?_⟩
        rw [totalCols_cons]
        omega
      · rcases ih h4 with ⟨s, hk, hb1, hb2⟩ | ⟨x, y, z, hk, hb1, hb2⟩
        · exact Or.inl ⟨s, hk, by omega, by simp only [List.length_cons]; omega⟩
        · refine Or.inr ⟨x, y, z, hk, by omega, ?_⟩
          rw [totalCols_cons]
          omega

theorem nodesSpec_nodup {n m : Nat} {ts : SchemaDocument} (hnm : n + ts.length ≤ m) :
    ((nodesSpec n m ts).map Prod.fst).Nodup := by
  induction ts generalizing n m with
  | nil => simp [nodesSpec]
  | cons t ts ih =>
    simp only [nodesSpec, List.map_cons, List.map_append, List.nodup_cons]
    simp only [List.length_cons] at hnm
    constructor
    · intro hc
      rcases List.mem_append.mp hc with h1 | h2
      · obtain ⟨p, hp, hfst⟩ := List.mem_map.mp h1
        obtain ⟨⟨hb1, -⟩, -⟩ := colNodes_bound hp
        omega
      · obtain ⟨p, hp, hfst⟩ := List.mem_map.mp h2
        rcases nodesSpec_kind_bound hp with ⟨-, -, hb1, -⟩ | ⟨-, -, -, -, hb1, -⟩ <;> omega
    · refine List.Nodup.append (colNodes_fst_nodup m t.columns) (ih (by omega)) ?_
      intro a ha hb
      obtain ⟨p, hp, hfst⟩ := List.mem_map.mp ha
      obtain ⟨q, hq, hfst2⟩ := List.mem_map.mp hb
      obtain ⟨⟨hb1, hb2⟩, -⟩ := colNodes_bound hp
      rcases nodesSpec_kind_bound hq with ⟨-, -, hc1, hc2⟩ | ⟨-, -, -, -, hc1, -⟩ <;> omega

theorem nodesSpec_table_mem {ts : SchemaDocument} {i : Nat} (hi : i < ts.length)
    (n m : Nat) :
    (n + 1 + i, NodeData.table (ts.get ⟨i, hi⟩).tableName) ∈ nodesSpec n m ts := by
  induction ts generalizing i n m with
  | nil => simp at hi
  | cons t ts ih =>
    cases i with
    | zero => simp [nodesSpec]
    | succ j =>
      have hj : j < ts.length := by simpa using hi
      have hmem := ih hj (n + 1) (m + t.columns.length)
      have harith : n + 1 + (j + 1) = n + 1 + 1 + j := by omega
      rw [harith]
      simp only [nodesSpec, List.mem_cons, List.mem_append, List.get_cons_succ]
      exact Or.inr (Or.inr hmem)

theorem colNodesF_append (m : Nat) (l₁ l₂ : List (String × ColumnDescriptor)) :
    colNodesF m (l₁ ++ l₂) = colNodesF m l₁ ++ colNodesF (m + l₁.length) l₂ := by
  induction l₁ generalizing m with
  | nil => simp [colNodesF]
  | cons p ps ih =>
    simp only [List.cons_append, colNodesF, List.append_eq, ih, List.length_cons]
    rw [show m + (ps.length + 1) = m + 1 + ps.length by omega]

theorem colNodes_eq_colNodesF (tname : String) (m : Nat) (cs : List ColumnDescriptor) :
    colNodes m cs = colNodesF m (cs.map (fun c => (tname, c))) := by
  induction cs generalizing m with
  | nil => rfl
  | cons c cs ih => simp [colNodes, colNodesF, ih]

theorem nodesSpec_filter_col (n m : Nat) (ts : SchemaDocument) :
    (nodesSpec n m ts).filter isColNode = colNodesF m (flatColumns ts) := by
  induction ts generalizing n m with
  | nil => simp [nodesSpec, flatColumns, colNodesF]
  | cons t ts ih =>
    rw [nodesSpec, flatColumns_cons, colNodesF_append, List.filter_cons]
    have hhd : isColNode (n + 1, NodeData.table t.tableName) = false := rfl
    rw [hhd]
    simp only [Bool.false_eq_true, if_false, List.filter_append]
    have hcols : (colNodes m t.columns).filter isColNode = colNodes m t.columns := by
      rw [List.filter_eq_self]
      intro p hp
      obtain ⟨-, x, y, z, hk⟩ := colNodes_bound hp
      simp [isColNode, hk]
    rw [hcols, ih, colNodes_eq_colNodesF t.tableName, List.length_map]

theorem colNodesF_get_mem {l : List (String × ColumnDescriptor)} {j : Nat}
    (hj : j < l.length) (m : Nat) :
    (m + 1 + j, NodeData.column (l.get ⟨j, hj⟩).2.columnName
      (l.get ⟨j, hj⟩).2.columnType (l.get ⟨j, hj⟩).2.isOptional) ∈ colNodesF m l := by
  induction l generalizing j m with
  | nil => simp at hj
  | cons p ps ih =>
    cases j with
    | zero => simp [colNodesF]
    | succ j' =>
      have hj' : j' < ps.length := by simpa using hj
      have hmem := ih hj' (m + 1)
      have harith : m + 1 + (j' + 1) = m + 1 + 1 + j' := by omega
      rw [harith]
      simp only [colNodesF, List.mem_cons, List.get_cons_succ]
      exact Or.inr hmem

theorem nodesSpec_col_mem {ts : SchemaDocument} {j : Nat}
    (hj : j < (flatColumns ts).length) (n m : Nat) :
    (m + 1 + j, NodeData.column ((flatColumns ts).get ⟨j, hj⟩).2.columnName
      ((flatColumns ts).get ⟨j, hj⟩).2.columnType
      ((flatColumns ts).get ⟨j, hj⟩).2.isOptional) ∈ nodesSpec n m ts := by
  have hmem := colNodesF_get_mem hj m
  rw [← nodesSpec_filter_col n m ts] at hmem
  exact List.mem_of_mem_filter hmem

theorem nodesSpec_col_complete {n m v : Nat} {ts : SchemaDocument}
    (h1 : m + 1 ≤ v) (h2 : v ≤ m + totalCols ts) :
    v ∈ (nodesSpec n m ts).map Prod.fst := by
  induction ts generalizing n m with
  | nil => simp only [totalCols, List.map_nil, List.sum_nil, Nat.add_zero] at h2; omega
  | cons t ts ih =>
    rw [totalCols_cons] at h2
    by_cases hv : v ≤ m + t.columns.length
    · have := colNodes_complete h1 hv
      obtain ⟨p, hp, hfst⟩ := List.mem_map.mp this
      exact List.mem_map.mpr ⟨p, by
        simp only [nodesSpec, List.mem_cons, List.mem_append]
        exact Or.inr (Or.inl hp), hfst⟩
    · have := ih (n := n + 1) (m := m + t.columns.length) (by omega) (by omega)
      obtain ⟨p, hp, hfst⟩ := List.mem_map.mp this
      exact List.mem_map.mpr ⟨p, by
        simp only [nodesSpec, List.mem_cons, List.mem_append]
        exact Or.inr (Or.inr hp), hfst⟩

/-! ## Lemmas: containment edge list -/

theorem colEdges_length (tid m : Nat) (cs : List ColumnDescriptor) :
    (colEdges tid m cs).length = cs.length := by
  induction cs generalizing m with
  | nil => rfl
  | cons c cs ih => simp [colEdges, ih]

theorem colEdges_bound {tid m : Nat} {cs : List ColumnDescriptor} {e : Nat × Nat}
    (h : e ∈ colEdges tid m cs) :
    e.1 = tid ∧ m + 1 ≤ e.2 ∧ e.2 ≤ m + cs.length := by
  induction cs generalizing m with
  | nil => simp [colEdges] at h
  | cons c cs ih =>
    rcases List.mem_cons.mp h with h1 | h2
    · rw [h1]
      exact ⟨rfl, Nat.le_refl _, by simp⟩
    · obtain ⟨h3, h4, h5⟩ := ih h2
      exact ⟨h3, by omega, by simp only [List.length_cons]; omega⟩

theorem edgesSpec_length (n m : Nat) (ts : SchemaDocument) :
    (edgesSpec n m ts).length = totalCols ts := by
  induction ts generalizing n m with
  | nil => rfl
  | cons t ts ih =>
    simp [edgesSpec, colEdges_length, ih, totalCols_cons]

theorem edgesSpec_bound {n m : Nat} {ts : SchemaDocument} {e : Nat × Nat}
    (h : e ∈ edgesSpec n m ts) :
    (n + 1 ≤ e.1 ∧ e.1 ≤ n + ts.length) ∧ (m + 1 ≤ e.2 ∧ e.2 ≤ m + totalCols ts) := by
  induction ts generalizing n m with
  | nil => simp [edgesSpec] at h
  | cons t ts ih =>
    rcases List.mem_append.mp h with h1 | h2
    · obtain ⟨h3, h4, h5⟩ := colEdges_bound h1
      rw [totalCols_cons]
      exact ⟨⟨by omega, by simp only [List.length_cons]; omega⟩, by omega, by omega⟩
    · obtain ⟨⟨h3, h4⟩, h5, h6⟩ := ih h2
      rw [totalCols_cons]
      refine ⟨⟨by omega, by simp only [List.length_cons]; omega⟩, by omega, by omega⟩

/-! ## Lemmas: the registry insertion list -/

theorem colKeys_eq (tname : String) (m : Nat) (cs : List ColumnDescriptor) :
    colKeys tname m cs = canonOfFlat m (cs.map (fun c => (tname, c))) := by
  induction cs generalizing m with
  | nil => rfl
  | cons c cs ih => simp [colKeys, canonOfFlat, ih]

theorem canonOfFlat_append (m : Nat) (l₁ l₂ : List (String × ColumnDescriptor)) :
    canonOfFlat m (l₁ ++ l₂) = canonOfFlat m l₁ ++ canonOfFlat (m + l₁.length) l₂ := by
  induction l₁ generalizing m with
  | nil => simp [canonOfFlat]
  | cons p ps ih =>
    simp only [List.cons_append, canonOfFlat, List.append_eq, ih, List.length_cons]
    rw [show m + (ps.length + 1) = m + 1 + ps.length by omega]

theorem canonSpec_eq_canonOfFlat (m : Nat) (ts : SchemaDocument) :
    canonSpec m ts = canonOfFlat m (flatColumns ts) := by
  induction ts generalizing m with
  | nil => rfl
  | cons t ts ih =>
    rw [canonSpec, flatColumns_cons, canonOfFlat_append, colKeys_eq, ih, List.length_map]

theorem canonOfFlat_fst (m : Nat) (l : List (String × ColumnDescriptor)) :
    (canonOfFlat m l).map Prod.fst = l.map (fun p => p.1 ++ p.2.columnName) := by
  induction l generalizing m with
  | nil => rfl
  | cons p ps ih => simp [canonOfFlat, ih]

theorem canonSpec_fst (m : Nat) (ts : SchemaDocument) :
    (canonSpec m ts).map Prod.fst = keyList ts := by
  rw [canonSpec_eq_canonOfFlat, canonOfFlat_fst, keyList]

theorem canonOfFlat_val_bound {m : Nat} {l : List (String × ColumnDescriptor)}
    {q : String × Nat} (h : q ∈ canonOfFlat m l) :
    m + 1 ≤ q.2 ∧ q.2 ≤ m + l.length := by
  induction l generalizing m with
  | nil => simp [canonOfFlat] at h
  | cons p ps ih =>
    rcases List.mem_cons.mp h with h1 | h2
    · rw [h1]
      exact ⟨Nat.le_refl _, by simp⟩
    · obtain ⟨h3, h4⟩ := ih h2
      exact ⟨by omega, by simp only [List.length_cons]; omega⟩

theorem canonSpec_val_bound {m : Nat} {ts : SchemaDocument} {q : String × Nat}
    (h : q ∈ canonSpec m ts) :
    m + 1 ≤ q.2 ∧ q.2 ≤ m + totalCols ts := by
  rw [canonSpec_eq_canonOfFlat] at h
  have := canonOfFlat_val_bound h
  rwa [flatColumns_length] at this

theorem canonOfFlat_get_mem {l : List (String × ColumnDescriptor)} {j : Nat}
    (hj : j < l.length) (m : Nat) :
    ((l.get ⟨j, hj⟩).1 ++ (l.get ⟨j, hj⟩).2.columnName, m + 1 + j) ∈ canonOfFlat m l := by
  induction l generalizing j m with
  | nil => simp at hj
  | cons p ps ih =>
    cases j with
    | zero => simp [canonOfFlat]
    | succ j' =>
      have hj' : j' < ps.length := by simpa using hj
      have hmem := ih hj' (m + 1)
      have harith : m + 1 + (j' + 1) = m + 1 + 1 + j' := by omega
      rw [harith]
      simp only [canonOfFlat, List.mem_cons, List.get_cons_succ]
      exact Or.inr hmem

/-! ## Characterizing pass 1 -/

theorem pass1Col_eval (tname : String) (st : BState) (c : ColumnDescriptor)
    (hfresh : hasNode st.G (st.columnIds + 1) = false)
    (htid : hasNode st.G st.nodeIds = true)
    (hend : ∀ e ∈ st.G.edges,
      e.1 ∈ st.G.nodes.map Prod.fst ∧ e.2 ∈ st.G.nodes.map Prod.fst) :
    pass1Col tname st c =
      { st with
        G := { nodes := st.G.nodes ++ [(st.columnIds + 1,
                 NodeData.column c.columnName c.columnType c.isOptional)]
               edges := st.G.edges ++ [(st.nodeIds, st.columnIds + 1)] }
        columnIds := st.columnIds + 1
        labeldict := labelInsert st.labeldict (st.columnIds + 1) c.columnName
        color_map := st.color_map ++ ["green"]
        canonicalColumns := dictInsert st.canonicalColumns
          (tname ++ c.columnName) (st.columnIds + 1) } := by
  have hnotmem : (st.columnIds + 1) ∉ st.G.nodes.map Prod.fst := by
    intro hc
    rw [← hasNode_iff, hfresh] at hc
    exact Bool.false_ne_true hc
  unfold pass1Col
  dsimp only
  rw [addNode_fresh hfresh]
  have ha : hasNode { st.G with nodes := st.G.nodes ++ [(st.columnIds + 1,
      NodeData.column c.columnName c.columnType c.isOptional)] } st.nodeIds = true := by
    rw [hasNode_iff] at htid ⊢
    simp only [List.map_append, List.mem_append]
    exact Or.inl htid
  have hb : hasNode { st.G with nodes := st.G.nodes ++ [(st.columnIds + 1,
      NodeData.column c.columnName c.columnType c.isOptional)] } (st.columnIds + 1) = true := by
    rw [hasNode_iff]
    simp
  have hedge : hasEdge { st.G with nodes := st.G.nodes ++ [(st.columnIds + 1,
      NodeData.column c.columnName c.columnType c.isOptional)] }
      st.nodeIds (st.columnIds + 1) = false := by
    have h0 : hasEdge st.G st.nodeIds (st.columnIds + 1) = false :=
      hasEdge_false_of_fresh hend hnotmem
    exact h0
  rw [addEdgeG_existing ha hb, hedge]
  simp

theorem pass1Cols_spec (tname : String) (L : Nat) :
    ∀ (cs : List ColumnDescriptor) (st : BState),
    (∀ p ∈ st.G.nodes, p.1 ≤ st.nodeIds ∨ (L + 1 ≤ p.1 ∧ p.1 ≤ st.columnIds)) →
    st.nodeIds ≤ L →
    L ≤ st.columnIds →
    (∀ e ∈ st.G.edges,
      e.1 ∈ st.G.nodes.map Prod.fst ∧ e.2 ∈ st.G.nodes.map Prod.fst) →
    hasNode st.G st.nodeIds = true →
    ((cs.foldl (pass1Col tname) st).G.nodes = st.G.nodes ++ colNodes st.columnIds cs
    ∧ (cs.foldl (pass1Col tname) st).G.edges
        = st.G.edges ++ colEdges st.nodeIds st.columnIds cs
    ∧ (cs.foldl (pass1Col tname) st).nodeIds = st.nodeIds
    ∧ (cs.foldl (pass1Col tname) st).columnIds = st.columnIds + cs.length
    ∧ (cs.foldl (pass1Col tname) st).canonicalColumns
        = canonFold st.canonicalColumns (colKeys tname st.columnIds cs)) := by
  intro cs
  induction cs with
  | nil =>
    intro st hinv hnL hLm hend htid
    simp [colNodes, colEdges, colKeys, canonFold]
  | cons c cs ih =>
    intro st hinv hnL hLm hend htid
    have hfresh : hasNode st.G (st.columnIds + 1) = false := by
      rw [Bool.eq_false_iff]
      intro hc
      rw [hasNode_iff] at hc
      obtain ⟨p, hp, hfst⟩ := List.mem_map.mp hc
      rcases hinv p hp with h1 | ⟨h2, h3⟩ <;> omega
    have heval := pass1Col_eval tname st c hfresh htid hend
    rw [List.foldl_cons, heval]
    set st1 : BState :=
      { st with
        G := { nodes := st.G.nodes ++ [(st.columnIds + 1,
                 NodeData.column c.columnName c.columnType c.isOptional)]
               edges := st.G.edges ++ [(st.nodeIds, st.columnIds + 1)] }
        columnIds := st.columnIds + 1
        labeldict := labelInsert st.labeldict (st.columnIds + 1) c.columnName
        color_map := st.color_map ++ ["green"]
        canonicalColumns := dictInsert st.canonicalColumns
          (tname ++ c.columnName) (st.columnIds + 1) } with hst1
    have hproj1 : st1.G.nodes = st.G.nodes ++ [(st.columnIds + 1,
        NodeData.column c.columnName c.columnType c.isOptional)] := rfl
    have hproj2 : st1.G.edges = st.G.edges ++ [(st.nodeIds, st.columnIds + 1)] := rfl
    have hproj3 : st1.nodeIds = st.nodeIds := rfl
    have hproj4 : st1.columnIds = st.columnIds + 1 := rfl
    have hproj5 : st1.canonicalColumns = dictInsert st.canonicalColumns
        (tname ++ c.columnName) (st.columnIds + 1) := rfl
    have hinv1 : ∀ p ∈ st1.G.nodes,
        p.1 ≤ st1.nodeIds ∨ (L + 1 ≤ p.1 ∧ p.1 ≤ st1.columnIds) := by
      rw [hproj1]
      simp only [hproj3, hproj4]
      intro p hp
      rcases List.mem_append.mp hp with h1 | h2
      · rcases hinv p h1 with h3 | ⟨h4, h5⟩
        · exact Or.inl h3
        · exact Or.inr ⟨h4, by omega⟩
      · have hpe : p = (st.columnIds + 1,
            NodeData.column c.columnName c.columnType c.isOptional) := by simpa using h2
        rw [hpe]
        exact Or.inr ⟨by omega, by omega⟩
    have hend1 : ∀ e ∈ st1.G.edges,
        e.1 ∈ st1.G.nodes.map Prod.fst ∧ e.2 ∈ st1.G.nodes.map Prod.fst := by
      rw [hproj1, hproj2]
      intro e he
      rcases List.mem_append.mp he with h1 | h2
      · obtain ⟨h3, h4⟩ := hend e h1
        constructor <;>
          (rw [List.map_append]; exact List.mem_append_left _ (by assumption))
      · have hee : e = (st.nodeIds, st.columnIds + 1) := by simpa using h2
        rw [hee]
        constructor
        · rw [List.map_append]
          exact List.mem_append_left _ (hasNode_iff.mp htid)
        · rw [List.map_append]
          exact List.mem_append_right _ (by simp)
    have htid1 : hasNode st1.G st1.nodeIds = true := by
      rw [hasNode_iff, hproj1, hproj3, List.map_append]
      exact List.mem_append_left _ (hasNode_iff.mp htid)
    obtain ⟨g1, g2, g3, g4, g5⟩ :=
      ih st1 hinv1 (show st1.nodeIds ≤ L from hproj3 ▸ hnL)
        (show L ≤ st1.columnIds from by rw [hproj4]; omega) hend1 htid1
    rw [hproj1] at g1
    rw [hproj2, hproj3] at g2
    rw [hproj3] at g3
    rw [hproj4] at g4 g5
    rw [hproj5] at g5
    refine ⟨?_, ?_, ?_, ?_, ?_⟩
    · rw [g1, hproj4]
      simp only [colNodes, List.append_assoc, List.singleton_append]
    · rw [g2, hproj4]
      simp only [colEdges, List.append_assoc, List.singleton_append]
    · exact g3
    · rw [g4]
      simp only [List.length_cons]
      omega
    · rw [g5]
      simp only [colKeys]
      rw [canonFold_cons]

theorem pass1Table_eval (st : BState) (t : TableDescriptor)
    (hfresh : hasNode st.G (st.nodeIds + 1) = false) :
    pass1Table st t = t.columns.foldl (pass1Col t.tableName)
      { st with
        G := { st.G with nodes := st.G.nodes
                 ++ [(st.nodeIds + 1, NodeData.table t.tableName)] }
        nodeIds := st.nodeIds + 1
        labeldict := labelInsert st.labeldict (st.nodeIds + 1) t.tableName
        color_map := st.color_map ++ ["red"] } := by
  unfold pass1Table
  dsimp only
  rw [addNode_fresh hfresh]

theorem pass1_go (L : Nat) :
    ∀ (ts : SchemaDocument) (st : BState),
    (∀ p ∈ st.G.nodes, p.1 ≤ st.nodeIds ∨ (L + 1 ≤ p.1 ∧ p.1 ≤ st.columnIds)) →
    st.nodeIds + ts.length ≤ L →
    L ≤ st.columnIds →
    (∀ e ∈ st.G.edges,
      e.1 ∈ st.G.nodes.map Prod.fst ∧ e.2 ∈ st.G.nodes.map Prod.fst) →
    ((ts.foldl pass1Table st).G.nodes
        = st.G.nodes ++ nodesSpec st.nodeIds st.columnIds ts
    ∧ (ts.foldl pass1Table st).G.edges
        = st.G.edges ++ edgesSpec st.nodeIds st.columnIds ts
    ∧ (ts.foldl pass1Table st).nodeIds = st.nodeIds + ts.length
    ∧ (ts.foldl pass1Table st).columnIds = st.columnIds + totalCols ts
    ∧ (ts.foldl pass1Table st).canonicalColumns
        = canonFold st.canonicalColumns (canonSpec st.columnIds ts)) := by
  intro ts
  induction ts with
  | nil =>
    intro st hinv hnL hLm hend
    simp [nodesSpec, edgesSpec, canonSpec, canonFold, totalCols]
  | cons t ts ih =>
    intro st hinv hnL hLm hend
    simp only [List.length_cons] at hnL
    have hfresh : hasNode st.G (st.nodeIds + 1) = false := by
      rw [Bool.eq_false_iff]
      intro hc
      rw [hasNode_iff] at hc
      obtain ⟨p, hp, hfst⟩ := List.mem_map.mp hc
      rcases hinv p hp with h1 | ⟨h2, h3⟩ <;> omega
    rw [List.foldl_cons, pass1Table_eval st t hfresh]
    set st1 : BState :=
      { st with
        G := { st.G with nodes := st.G.nodes
                 ++ [(st.nodeIds + 1, NodeData.table t.tableName)] }
        nodeIds := st.nodeIds + 1
        labeldict := labelInsert st.labeldict (st.nodeIds + 1) t.tableName
        color_map := st.color_map ++ ["red"] } with hst1
    have hproj1 : st1.G.nodes = st.G.nodes
        ++ [(st.nodeIds + 1, NodeData.table t.tableName)] := rfl
    have hproj2 : st1.G.edges = st.G.edges := rfl
    have hproj3 : st1.nodeIds = st.nodeIds + 1 := rfl
    have hproj4 : st1.columnIds = st.columnIds := rfl
    have hproj5 : st1.canonicalColumns = st.canonicalColumns := rfl
    have hinv1 : ∀ p ∈ st1.G.nodes,
        p.1 ≤ st1.nodeIds ∨ (L + 1 ≤ p.1 ∧ p.1 ≤ st1.columnIds) := by
      rw [hproj1]
      simp only [hproj3, hproj4]
      intro p hp
      rcases List.mem_append.mp hp with h1 | h2
      · rcases hinv p h1 with h3 | ⟨h4, h5⟩
        · exact Or.inl (by omega)
        · exact Or.inr ⟨h4, h5⟩
      · have hpe : p = (st.nodeIds + 1, NodeData.table t.tableName) := by simpa using h2
        rw [hpe]
        exact Or.inl (Nat.le_refl _)
    have hend1 : ∀ e ∈ st1.G.edges,
        e.1 ∈ st1.G.nodes.map Prod.fst ∧ e.2 ∈ st1.G.nodes.map Prod.fst := by
      rw [hproj1, hproj2]
      intro e he
      obtain ⟨h3, h4⟩ := hend e he
      constructor <;>
        (rw [List.map_append]; exact List.mem_append_left _ (by assumption))
    have htid1 : hasNode st1.G st1.nodeIds = true := by
      rw [hasNode_iff, hproj1, hproj3, List.map_append]
      exact List.mem_append_right _ (by simp)
    obtain ⟨c1, c2, c3, c4, c5⟩ :=
      pass1Cols_spec t.tableName L t.columns st1 hinv1
        (show st1.nodeIds ≤ L from by rw [hproj3]; omega)
        (show L ≤ st1.columnIds from by rw [hproj4]; omega)
        hend1 htid1
    rw [hproj1, hproj4] at c1
    rw [hproj2, hproj3, hproj4] at c2
    rw [hproj3] at c3
    rw [hproj4] at c4
    rw [hproj4, hproj5] at c5
    set st2 : BState := t.columns.foldl (pass1Col t.tableName) st1 with hst2
    have hinv2 : ∀ p ∈ st2.G.nodes,
        p.1 ≤ st2.nodeIds ∨ (L + 1 ≤ p.1 ∧ p.1 ≤ st2.columnIds) := by
      rw [c1]
      simp only [c3, c4]
      intro p hp
      rcases List.mem_append.mp hp with h1 | h2
      · rcases List.mem_append.mp h1 with h3 | h4
        · rcases hinv p h3 with h5 | ⟨h6, h7⟩
          · exact Or.inl (by omega)
          · exact Or.inr ⟨h6, by omega⟩
        · have hpe : p = (st.nodeIds + 1, NodeData.table t.tableName) := by simpa using h4
          rw [hpe]
          exact Or.inl (Nat.le_refl _)
      · obtain ⟨⟨hb1, hb2⟩, -⟩ := colNodes_bound h2
        exact Or.inr ⟨by omega, by omega⟩
    have hend2 : ∀ e ∈ st2.G.edges,
        e.1 ∈ st2.G.nodes.map Prod.fst ∧ e.2 ∈ st2.G.nodes.map Prod.fst := by
      rw [c1, c2]
      intro e he
      rcases List.mem_append.mp he with h1 | h2
      · obtain ⟨h3, h4⟩ := hend e h1
        constructor <;>
          (rw [List.map_append, List.map_append]
           exact List.mem_append_left _ (List.mem_append_left _ (by assumption)))
      · obtain ⟨hb1, hb2, hb3⟩ := colEdges_bound h2
        constructor
        · rw [List.map_append]
          refine List.mem_append_left _ ?_
          rw [List.map_append]
          exact List.mem_append_right _ (by simp [hb1])
        · rw [List.map_append]
          exact List.mem_append_right _ (colNodes_complete hb2 hb3)
    obtain ⟨d1, d2, d3, d4, d5⟩ :=
      ih st2 hinv2
        (show st2.nodeIds + ts.length ≤ L from by rw [c3]; omega)
        (show L ≤ st2.columnIds from by rw [c4]; omega)
        hend2
    rw [c1, c3, c4] at d1
    rw [c2, c3, c4] at d2
    rw [c3] at d3
    rw [c4] at d4
    rw [c4, c5] at d5
    refine ⟨?_, ?_, ?_, ?_, ?_⟩
    · rw [d1]
      simp only [nodesSpec, List.append_assoc, List.singleton_append, List.cons_append,
        List.nil_append]
    · rw [d2]
      simp only [edgesSpec, List.append_assoc]
    · rw [d3]
      simp only [List.length_cons]
      omega
    · rw [d4]
      rw [totalCols_cons]
      omega
    · rw [d5, ← canonFold_append]
      rfl

theorem pass1_spec (data : SchemaDocument) :
    (pass1 data).G.nodes = nodesSpec 0 (data.length + 1) data
    ∧ (pass1 data).G.edges = edgesSpec 0 (data.length + 1) data
    ∧ (pass1 data).nodeIds = data.length
    ∧ (pass1 data).columnIds = data.length + 1 + totalCols data
    ∧ (pass1 data).canonicalColumns
        = canonFold [] (canonSpec (data.length + 1) data) := by
  have h := pass1_go data.length data (initState data)
    (by intro p hp; simp [initState] at hp)
    (by simp [initState])
    (by simp [initState])
    (by intro e he; simp [initState] at he)
  simpa [pass1, initState] using h

/-! ## Characterizing pass 2 -/

theorem pass2Flat_cons (canon : List (String × Nat)) (G : Graph)
    (p : String × ColumnDescriptor) (l : List (String × ColumnDescriptor)) :
    pass2Flat canon G (p :: l)
      = match pass2Col canon p.1 G p.2 with
        | Except.ok G' => pass2Flat canon G' l
        | Except.error e => Except.error e := by
  show List.foldlM _ G (p :: l) = _
  rw [List.foldlM_cons]
  cases h : pass2Col canon p.1 G p.2 with
  | ok G' => rfl
  | error e => rfl

theorem pass2Flat_append (canon : List (String × Nat)) (G : Graph)
    (l₁ l₂ : List (String × ColumnDescriptor)) :
    pass2Flat canon G (l₁ ++ l₂)
      = match pass2Flat canon G l₁ with
        | Except.ok G' => pass2Flat canon G' l₂
        | Except.error e => Except.error e := by
  induction l₁ generalizing G with
  | nil => rfl
  | cons p ps ih =>
    rw [List.cons_append, pass2Flat_cons, pass2Flat_cons]
    cases h : pass2Col canon p.1 G p.2 with
    | ok G' => exact ih G'
    | error e => rfl

theorem pass2Table_eq (canon : List (String × Nat)) (G : Graph)
    (t : TableDescriptor) :
    pass2Table canon G t
      = pass2Flat canon G (t.columns.map (fun c => (t.tableName, c))) := by
  show List.foldlM _ G t.columns = List.foldlM _ G (t.columns.map _)
  induction t.columns generalizing G with
  | nil => rfl
  | cons c cs ih =>
    rw [List.map_cons, List.foldlM_cons, List.foldlM_cons]
    cases h : pass2Col canon t.tableName G c with
    | ok G' =>
      show List.foldlM _ G' cs = _
      exact ih G'
    | error e => rfl

theorem pass2_eq_flat (canon : List (String × Nat)) (data : SchemaDocument) :
    ∀ G, pass2 canon G data = pass2Flat canon G (flatColumns data) := by
  induction data with
  | nil => intro G; rfl
  | cons t ts ih =>
    intro G
    show List.foldlM _ G (t :: ts) = _
    rw [List.foldlM_cons, flatColumns_cons, pass2Flat_append, ← pass2Table_eq]
    cases h : pass2Table canon G t with
    | ok G' =>
      show pass2 canon G' ts = _
      exact ih G'
    | error e => rfl

theorem pass2Col_none (canon : List (String × Nat)) (tname : String) (G : Graph)
    {c : ColumnDescriptor} (h : c.foreignKeyReference = none) :
    pass2Col canon tname G c = Except.ok G := by
  unfold pass2Col
  rw [h]

theorem pass2Col_some_ok (canon : List (String × Nat)) (tname : String) (G : Graph)
    {c : ColumnDescriptor} {fk : String × String}
    (h : c.foreignKeyReference = some fk)
    (h1 : hasKey canon (tname ++ c.columnName) = true)
    (h2 : hasKey canon (fk.1 ++ fk.2) = true) :
    pass2Col canon tname G c = Except.ok (addEdgeG G
      (lookup0 canon (tname ++ c.columnName)) (lookup0 canon (fk.1 ++ fk.2))) := by
  unfold pass2Col
  rw [h]
  dsimp only
  rw [dictGet_of_hasKey h1, dictGet_of_hasKey h2]

theorem edgeFold_cons (G : Graph) (q : Nat × Nat) (l : List (Nat × Nat)) :
    edgeFold G (q :: l) = edgeFold (addEdgeG G q.1 q.2) l := rfl

theorem pass2Flat_ok (canon : List (String × Nat)) :
    ∀ (l : List (String × ColumnDescriptor)) (G : Graph),
    (∀ p ∈ l, colReady canon p) →
    pass2Flat canon G l = Except.ok (edgeFold G (resPairsOf canon l)) := by
  intro l
  induction l with
  | nil => intro G h; rfl
  | cons p ps ih =>
    intro G h
    rw [pass2Flat_cons]
    cases hfk : p.2.foreignKeyReference with
    | none =>
      rw [pass2Col_none canon p.1 G hfk]
      rw [show resPairsOf canon (p :: ps) = resPairsOf canon ps from by
        simp [resPairsOf, hfk]]
      exact ih G (fun q hq => h q (List.mem_cons_of_mem _ hq))
    | some fk =>
      obtain ⟨h1, h2⟩ := h p (List.mem_cons_self _ _) fk hfk
      rw [pass2Col_some_ok canon p.1 G hfk h1 h2]
      rw [show resPairsOf canon (p :: ps)
          = (lookup0 canon (p.1 ++ p.2.columnName), lookup0 canon (fk.1 ++ fk.2))
            :: resPairsOf canon ps from by simp [resPairsOf, hfk]]
      rw [edgeFold_cons]
      exact ih _ (fun q hq => h q (List.mem_cons_of_mem _ hq))

theorem pass2Flat_ok_ready {canon : List (String × Nat)} :
    ∀ {l : List (String × ColumnDescriptor)} {G G' : Graph},
    pass2Flat canon G l = Except.ok G' → ∀ p ∈ l, colReady canon p := by
  intro l
  induction l with
  | nil => intro G G' h p hp; simp at hp
  | cons p ps ih =>
    intro G G' h q hq
    rw [pass2Flat_cons] at h
    cases hcol : pass2Col canon p.1 G p.2 with
    | error e =>
      rw [hcol] at h
      exact absurd h (by simp)
    | ok G1 =>
      rw [hcol] at h
      rcases List.mem_cons.mp hq with h3 | h4
      · subst h3
        intro fk hfk
        unfold pass2Col at hcol
        rw [hfk] at hcol
        dsimp only at hcol
        cases hg1 : dictGet canon (q.1 ++ q.2.columnName) with
        | error e =>
          rw [hg1] at hcol
          exact absurd hcol (by simp)
        | ok a =>
          rw [hg1] at hcol
          cases hg2 : dictGet canon (fk.1 ++ fk.2) with
          | error e =>
            rw [hg2] at hcol
            exact absurd hcol (by simp)
          | ok b =>
            exact ⟨(dictGet_ok_facts hg1).1, (dictGet_ok_facts hg2).1⟩
      · exact ih h q h4

theorem hasEdge_eta (G : Graph) (q : Nat × Nat) :
    hasEdge G q.1 q.2 = pairMem G.edges q := rfl

theorem edgeFold_spec :
    ∀ (l : List (Nat × Nat)) (G : Graph),
    (∀ q ∈ l, q.1 ∈ G.nodes.map Prod.fst ∧ q.2 ∈ G.nodes.map Prod.fst) →
    edgeFold G l = { G with edges := G.edges ++ undirDedup G.edges l } := by
  intro l
  induction l with
  | nil =>
    intro G h
    show G = _
    rw [undirDedup]
    rw [List.append_nil]
  | cons q qs ih =>
    intro G h
    obtain ⟨ha, hb⟩ := h q (List.mem_cons_self _ _)
    rw [edgeFold_cons, addEdgeG_existing (hasNode_iff.mpr ha) (hasNode_iff.mpr hb)]
    by_cases he : hasEdge G q.1 q.2 = true
    · rw [if_pos he]
      rw [ih G (fun r hr => h r (List.mem_cons_of_mem _ hr))]
      rw [hasEdge_eta] at he
      rw [undirDedup, if_pos he]
    · rw [if_neg he]
      rw [hasEdge_eta, Bool.not_eq_true] at he
      have hnodes : ∀ r ∈ qs,
          r.1 ∈ ({ G with edges := G.edges ++ [(q.1, q.2)] } : Graph).nodes.map Prod.fst
          ∧ r.2 ∈ ({ G with edges := G.edges ++ [(q.1, q.2)] } : Graph).nodes.map Prod.fst := by
        intro r hr
        exact h r (List.mem_cons_of_mem _ hr)
      rw [ih _ hnodes]
      rw [undirDedup, if_neg (by rw [he]; exact Bool.false_ne_true)]
      show ({ G with edges := (G.edges ++ [(q.1, q.2)])
        ++ undirDedup (G.edges ++ [(q.1, q.2)]) qs } : Graph) = _
      rw [List.append_assoc, List.singleton_append]

theorem undirDedup_subset :
    ∀ {l seen : List (Nat × Nat)} {q : Nat × Nat}, q ∈ undirDedup seen l → q ∈ l := by
  intro l
  induction l with
  | nil => intro seen q h; rw [undirDedup] at h; simp at h
  | cons r rs ih =>
    intro seen q h
    rw [undirDedup] at h
    by_cases hp : pairMem seen r = true
    · rw [if_pos hp] at h
      exact List.mem_cons_of_mem _ (ih h)
    · rw [if_neg hp] at h
      rcases List.mem_cons.mp h with h1 | h2
      · rw [h1]; exact List.mem_cons_self _ _
      · exact List.mem_cons_of_mem _ (ih h2)

theorem undirDedup_seen_shift :
    ∀ (l : List (Nat × Nat)) (es0 acc : List (Nat × Nat)),
    (∀ q ∈ l, pairMem es0 q = false) →
    undirDedup (es0 ++ acc) l = undirDedup acc l := by
  intro l
  induction l with
  | nil => intro es0 acc h; rfl
  | cons q qs ih =>
    intro es0 acc h
    rw [undirDedup, undirDedup, pairMem_append, h q (List.mem_cons_self _ _),
      Bool.false_or]
    by_cases hp : pairMem acc q = true
    · rw [if_pos hp, if_pos hp]
      exact ih es0 acc (fun r hr => h r (List.mem_cons_of_mem _ hr))
    · rw [if_neg hp, if_neg hp, List.append_assoc]
      rw [ih es0 (acc ++ [q]) (fun r hr => h r (List.mem_cons_of_mem _ hr))]

/-! ## The complete characterization of a build -/

theorem canon_final_val {data : SchemaDocument} {k : String} {v : Nat}
    (h : dictGet (pass1 data).canonicalColumns k = Except.ok v) :
    data.length + 2 ≤ v ∧ v ≤ data.length + 1 + totalCols data := by
  obtain ⟨-, -, hmem⟩ := dictGet_ok_facts h
  rw [(pass1_spec data).2.2.2.2] at hmem
  rcases mem_canonFold hmem with h1 | h2
  · simp at h1
  · have := canonSpec_val_bound h2
    omega

theorem resPairs_endpoint_bound {data : SchemaDocument}
    (hready : ∀ p ∈ flatColumns data, colReady (pass1 data).canonicalColumns p)
    {q : Nat × Nat}
    (hq : q ∈ resPairsOf (pass1 data).canonicalColumns (flatColumns data)) :
    (data.length + 2 ≤ q.1 ∧ q.1 ≤ data.length + 1 + totalCols data)
    ∧ (data.length + 2 ≤ q.2 ∧ q.2 ≤ data.length + 1 + totalCols data) := by
  obtain ⟨p, hp, hsome⟩ := List.mem_filterMap.mp hq
  cases hfk : p.2.foreignKeyReference with
  | none => rw [hfk] at hsome; simp at hsome
  | some fk =>
    rw [hfk] at hsome
    have hqe : (lookup0 (pass1 data).canonicalColumns (p.1 ++ p.2.columnName),
        lookup0 (pass1 data).canonicalColumns (fk.1 ++ fk.2)) = q := by
      simpa using hsome
    obtain ⟨h1, h2⟩ := hready p hp fk hfk
    have b1 := canon_final_val (dictGet_of_hasKey h1)
    have b2 := canon_final_val (dictGet_of_hasKey h2)
    rw [← hqe]
    exact ⟨b1, b2⟩

theorem pairMem_edgesSpec_false {data : SchemaDocument} {q : Nat × Nat}
    (hq1 : data.length + 2 ≤ q.1) (hq2 : data.length + 2 ≤ q.2) :
    pairMem (edgesSpec 0 (data.length + 1) data) q = false := by
  rw [Bool.eq_false_iff]
  intro hc
  simp only [pairMem, List.any_eq_true, Bool.or_eq_true, Bool.and_eq_true,
    beq_iff_eq] at hc
  obtain ⟨e, he, hcase⟩ := hc
  obtain ⟨⟨hb1, hb2⟩, -⟩ := edgesSpec_bound he
  rcases hcase with ⟨h1, -⟩ | ⟨h1, -⟩ <;> omega

theorem buildGraph_ok_of_ready {data : SchemaDocument}
    (hready : ∀ p ∈ flatColumns data, colReady (pass1 data).canonicalColumns p) :
    buildGraph data = Except.ok (edgeFold (pass1 data).G
      (resPairsOf (pass1 data).canonicalColumns (flatColumns data))) := by
  show pass2 _ _ data = _
  rw [pass2_eq_flat]
  exact pass2Flat_ok _ _ _ hready

theorem buildGraph_ok_char {data : SchemaDocument} {G : Graph}
    (h : buildGraph data = Except.ok G) :
    (∀ p ∈ flatColumns data, colReady (pass1 data).canonicalColumns p)
    ∧ G.nodes = nodesSpec 0 (data.length + 1) data
    ∧ G.edges = edgesSpec 0 (data.length + 1) data
        ++ undirDedup []
          (resPairsOf (pass1 data).canonicalColumns (flatColumns data)) := by
  have hb : pass2 (pass1 data).canonicalColumns (pass1 data).G data = Except.ok G := h
  rw [pass2_eq_flat] at hb
  have hready := pass2Flat_ok_ready hb
  rw [pass2Flat_ok _ _ _ hready] at hb
  have hG : G = edgeFold (pass1 data).G
      (resPairsOf (pass1 data).canonicalColumns (flatColumns data)) :=
    (Except.ok.inj hb).symm
  have hnodes := (pass1_spec data).1
  have hedges := (pass1_spec data).2.1
  have hend : ∀ q ∈ resPairsOf (pass1 data).canonicalColumns (flatColumns data),
      q.1 ∈ (pass1 data).G.nodes.map Prod.fst
      ∧ q.2 ∈ (pass1 data).G.nodes.map Prod.fst := by
    intro q hq
    obtain ⟨⟨b1a, b1b⟩, b2a, b2b⟩ := resPairs_endpoint_bound hready hq
    rw [hnodes]
    exact ⟨nodesSpec_col_complete (by omega) (by omega),
      nodesSpec_col_complete (by omega) (by omega)⟩
  rw [edgeFold_spec _ _ hend] at hG
  refine ⟨hready, ?_, ?_⟩
  · rw [hG]
    exact hnodes
  · rw [hG]
    show (pass1 data).G.edges ++ _ = _
    rw [hedges]
    congr 1
    have hfalse : ∀ q ∈ resPairsOf (pass1 data).canonicalColumns (flatColumns data),
        pairMem (edgesSpec 0 (data.length + 1) data) q = false := by
      intro q hq
      obtain ⟨⟨b1a, -⟩, b2a, -⟩ := resPairs_endpoint_bound hready hq
      exact pairMem_edgesSpec_false b1a b2a
    have := undirDedup_seen_shift
      (resPairsOf (pass1 data).canonicalColumns (flatColumns data))
      (edgesSpec 0 (data.length + 1) data) [] hfalse
    rwa [List.append_nil] at this

/-! ## The claims -/

/-- Claim C1: for every schema document on which the build completes, with T
tables whose column counts are c1..cT, the graph parseJson builds has
exactly T + (c1 + ... + cT) nodes, and exactly c1 + ... + cT of its edges
are Contains edges (edges touching a table node, one per column). -/
theorem build_node_and_contains_count (data : SchemaDocument) (G : Graph)
    (h : buildGraph data = Except.ok G) :
    G.nodes.length = data.length + totalCols data
    ∧ (G.edges.filter (isContainsEdge data.length)).length = totalCols data := by
  obtain ⟨hready, hnodes, hedges⟩ := buildGraph_ok_char h
  constructor
  · rw [hnodes, nodesSpec_length]
  · rw [hedges, List.filter_append]
    have h1 : (edgesSpec 0 (data.length + 1) data).filter (isContainsEdge data.length)
        = edgesSpec 0 (data.length + 1) data := by
      rw [List.filter_eq_self]
      intro e he
      obtain ⟨⟨hb1, hb2⟩, -⟩ := edgesSpec_bound he
      simp only [isContainsEdge, Bool.or_eq_true, decide_eq_true_eq]
      left
      omega
    have h2 : (undirDedup [] (resPairsOf (pass1 data).canonicalColumns
        (flatColumns data))).filter (isContainsEdge data.length) = [] := by
      rw [List.filter_eq_nil_iff]
      intro e he
      obtain ⟨⟨b1a, -⟩, b2a, -⟩ := resPairs_endpoint_bound hready (undirDedup_subset he)
      simp only [isContainsEdge, Bool.or_eq_true, decide_eq_true_eq, not_or]
      omega
    rw [h1, h2, List.append_nil, edgesSpec_length]

/-- Witness for C1: the concrete one-table, one-column document. -/
theorem build_node_and_contains_count_witness :
    buildGraph w1doc = Except.ok w1G
    ∧ (w1G.nodes.length = w1doc.length + totalCols w1doc
      ∧ (w1G.edges.filter (isContainsEdge w1doc.length)).length = totalCols w1doc) := by
  have hb : buildGraph w1doc = Except.ok w1G := by rfl
  exact ⟨hb, build_node_and_contains_count w1doc w1G hb⟩

/-- Claim C3: in every graph the build returns, node ids are pairwise
distinct; the i-th table of the document (0-based) carries id i + 1 and the
j-th column of the flattened document carries id T + 2 + j, so within each
class ids follow document order; and every table node id is numerically
smaller than every column node id. -/
theorem node_id_uniqueness_and_order (data : SchemaDocument) (G : Graph)
    (h : buildGraph data = Except.ok G) :
    (G.nodes.map Prod.fst).Nodup
    ∧ (∀ i : Fin data.length,
        ((i : Nat) + 1, NodeData.table (data.get i).tableName) ∈ G.nodes)
    ∧ (∀ j : Fin (flatColumns data).length,
        (data.length + 2 + (j : Nat),
          NodeData.column ((flatColumns data).get j).2.columnName
            ((flatColumns data).get j).2.columnType
            ((flatColumns data).get j).2.isOptional) ∈ G.nodes)
    ∧ (∀ p ∈ G.nodes, ∀ q ∈ G.nodes, (∃ s, p.2 = NodeData.table s) →
        (∃ x y z, q.2 = NodeData.column x y z) → p.1 < q.1) := by
  obtain ⟨-, hnodes, -⟩ := buildGraph_ok_char h
  rw [hnodes]
  refine ⟨nodesSpec_nodup (by omega), ?_, ?_, ?_⟩
  · intro i
    have hmem := nodesSpec_table_mem i.isLt 0 (data.length + 1)
    rw [show (i : Nat) + 1 = 0 + 1 + (i : Nat) by omega]
    exact hmem
  · intro j
    have hmem := nodesSpec_col_mem j.isLt 0 (data.length + 1)
    rw [show data.length + 2 + (j : Nat) = data.length + 1 + 1 + (j : Nat) by omega]
    exact hmem
  · intro p hp q hq hpt hqc
    obtain ⟨s, hs⟩ := hpt
    obtain ⟨x, y, z, hz⟩ := hqc
    rcases nodesSpec_kind_bound hp with ⟨s', -, hb1, hb2⟩ | ⟨x', y', z', hk, -, -⟩
    · rcases nodesSpec_kind_bound hq with ⟨s'', hk2, -, -⟩ | ⟨-, -, -, -, hc1, -⟩
      · rw [hz] at hk2
        exact absurd hk2 (by simp)
      · omega
    · rw [hs] at hk
      exact absurd hk (by simp)

/-- Witness for C3: the concrete two-table document. -/
theorem node_id_uniqueness_and_order_witness :
    buildGraph w3doc = Except.ok w3G
    ∧ ((w3G.nodes.map Prod.fst).Nodup
      ∧ (∀ i : Fin w3doc.length,
          ((i : Nat) + 1, NodeData.table (w3doc.get i).tableName) ∈ w3G.nodes)
      ∧ (∀ j : Fin (flatColumns w3doc).length,
          (w3doc.length + 2 + (j : Nat),
            NodeData.column ((flatColumns w3doc).get j).2.columnName
              ((flatColumns w3doc).get j).2.columnType
              ((flatColumns w3doc).get j).2.isOptional) ∈ w3G.nodes)
      ∧ (∀ p ∈ w3G.nodes, ∀ q ∈ w3G.nodes, (∃ s, p.2 = NodeData.table s) →
          (∃ x y z, q.2 = NodeData.column x y z) → p.1 < q.1)) := by
  have hb : buildGraph w3doc = Except.ok w3G := by rfl
  exact ⟨hb, node_id_uniqueness_and_order w3doc w3G hb⟩

/-- Claim C10: in every graph built from a non-empty document, the id
T + 1 is assigned to no node; table nodes carry exactly the ids 1..T,
column nodes carry consecutive ids starting at T + 2 following the
flattened document order, within T + 2 .. T + 1 + total column count. -/
theorem node_id_gap (data : SchemaDocument) (G : Graph)
    (h : buildGraph data = Except.ok G) (_hT : 1 ≤ data.length) :
    (∀ p ∈ G.nodes, p.1 ≠ data.length + 1)
    ∧ (∀ p ∈ G.nodes, (∃ s, p.2 = NodeData.table s) →
        1 ≤ p.1 ∧ p.1 ≤ data.length)
    ∧ (∀ i : Fin data.length,
        ((i : Nat) + 1, NodeData.table (data.get i).tableName) ∈ G.nodes)
    ∧ (∀ p ∈ G.nodes, (∃ x y z, p.2 = NodeData.column x y z) →
        data.length + 2 ≤ p.1 ∧ p.1 ≤ data.length + 1 + totalCols data)
    ∧ (∀ j : Fin (flatColumns data).length,
        (data.length + 2 + (j : Nat),
          NodeData.column ((flatColumns data).get j).2.columnName
            ((flatColumns data).get j).2.columnType
            ((flatColumns data).get j).2.isOptional) ∈ G.nodes) := by
  obtain ⟨-, hnodes, -⟩ := buildGraph_ok_char h
  rw [hnodes]
  refine ⟨?_, ?_, ?_, ?_, ?_⟩
  · intro p hp
    rcases nodesSpec_kind_bound hp with ⟨-, -, hb1, hb2⟩ | ⟨-, -, -, -, hb1, -⟩ <;> omega
  · intro p hp hpt
    obtain ⟨s, hs⟩ := hpt
    rcases nodesSpec_kind_bound hp with ⟨-, -, hb1, hb2⟩ | ⟨x', y', z', hk, -, -⟩
    · omega
    · rw [hs] at hk
      exact absurd hk (by simp)
  · intro i
    have hmem := nodesSpec_table_mem i.isLt 0 (data.length + 1)
    rw [show (i : Nat) + 1 = 0 + 1 + (i : Nat) by omega]
    exact hmem
  · intro p hp hpc
    obtain ⟨x, y, z, hz⟩ := hpc
    rcases nodesSpec_kind_bound hp with ⟨s', hk, -, -⟩ | ⟨-, -, -, -, hb1, hb2⟩
    · rw [hz] at hk
      exact absurd hk (by simp)
    · omega
  · intro j
    have hmem := nodesSpec_col_mem j.isLt 0 (data.length + 1)
    rw [show data.length + 2 + (j : Nat) = data.length + 1 + 1 + (j : Nat) by omega]
    exact hmem

/-- Witness for C10: the concrete one-table document; id 2 = T + 1 is the
gap. -/
theorem node_id_gap_witness :
    buildGraph w10doc = Except.ok w10G
    ∧ 1 ≤ w10doc.length
    ∧ (∀ p ∈ w10G.nodes, p.1 ≠ w10doc.length + 1) := by
  have hb : buildGraph w10doc = Except.ok w10G := by rfl
  exact ⟨hb, by decide, (node_id_gap w10doc w10G hb (by decide)).1⟩

/-- Claim C9: when every non-null foreignKeyReference names a (table,
column) pair present somewhere in the document, the two-pass build
succeeds; this includes forward references, because pass 2 only runs after
pass 1 has registered every column of the whole document. -/
theorem build_succeeds_on_resolvable (data : SchemaDocument)
    (h : ∀ p ∈ flatColumns data, ∀ fk, p.2.foreignKeyReference = some fk →
      ∃ q ∈ flatColumns data, q.1 = fk.1 ∧ q.2.columnName = fk.2) :
    ∃ G, buildGraph data = Except.ok G := by
  refine ⟨_, buildGraph_ok_of_ready ?_⟩
  intro p hp fk hfk
  constructor
  · rw [(pass1_spec data).2.2.2.2]
    apply hasKey_canonFold_of_mem
    rw [canonSpec_fst]
    exact List.mem_map.mpr ⟨p, hp, rfl⟩
  · obtain ⟨q, hq, hq1, hq2⟩ := h p hp fk hfk
    rw [(pass1_spec data).2.2.2.2]
    apply hasKey_canonFold_of_mem
    rw [canonSpec_fst]
    exact List.mem_map.mpr ⟨q, hq, by rw [hq1, hq2]⟩

/-- Witness for C9: a document whose first table references a column of the
second table (a forward reference), on which the build succeeds. -/
theorem build_succeeds_on_resolvable_witness :
    (∀ p ∈ flatColumns w9doc, ∀ fk, p.2.foreignKeyReference = some fk →
      ∃ q ∈ flatColumns w9doc, q.1 = fk.1 ∧ q.2.columnName = fk.2)
    ∧ ∃ G, buildGraph w9doc = Except.ok G := by
  have hres : ∀ p ∈ flatColumns w9doc, ∀ fk, p.2.foreignKeyReference = some fk →
      ∃ q ∈ flatColumns w9doc, q.1 = fk.1 ∧ q.2.columnName = fk.2 := by
    intro p hp fk hfk
    have hflat : flatColumns w9doc
        = [("a", ⟨"x", "int", false, some ("b", "y")⟩),
           ("b", ⟨"y", "int", false, none⟩)] := by rfl
    rw [hflat] at hp
    rcases List.mem_cons.mp hp with h1 | h2
    · rw [h1] at hfk
      have hfke : fk = ("b", "y") := by
        simpa using hfk.symm
      rw [hfke, hflat]
      exact ⟨("b", ⟨"y", "int", false, none⟩), by simp, rfl, rfl⟩
    · have h3 : p = ("b", ⟨"y", "int", false, none⟩) := by simpa using h2
      rw [h3] at hfk
      simp at hfk
  exact ⟨hres, build_succeeds_on_resolvable w9doc hres⟩

/-- Claim C7 (amended): when the concatenated canonical keys
tableName ++ columnName of the document are pairwise distinct, the
canonical key of the j-th flattened column resolves to exactly that
column's node id T + 2 + j, and in a successful build every References
edge joins the referencing column's own node to the node that its
foreignKeyReference's concatenated key resolves to. -/
theorem canonical_key_resolution (data : SchemaDocument) (G : Graph)
    (hkeys : (keyList data).Nodup) (h : buildGraph data = Except.ok G) :
    (∀ j : Fin (flatColumns data).length,
      dictGet (pass1 data).canonicalColumns
        (((flatColumns data).get j).1 ++ ((flatColumns data).get j).2.columnName)
        = Except.ok (data.length + 2 + (j : Nat)))
    ∧ (∀ e ∈ G.edges, isRefEdge data.length e = true →
        ∃ j : Fin (flatColumns data).length, ∃ fk,
          ((flatColumns data).get j).2.foreignKeyReference = some fk
          ∧ e.1 = data.length + 2 + (j : Nat)
          ∧ dictGet (pass1 data).canonicalColumns (fk.1 ++ fk.2)
              = Except.ok e.2) := by
  have hres : ∀ j : Fin (flatColumns data).length,
      dictGet (pass1 data).canonicalColumns
        (((flatColumns data).get j).1 ++ ((flatColumns data).get j).2.columnName)
        = Except.ok (data.length + 2 + (j : Nat)) := by
    intro j
    rw [(pass1_spec data).2.2.2.2]
    apply dictGet_canonFold_nodup
    · rw [canonSpec_fst]
      exact hkeys
    · rw [canonSpec_eq_canonOfFlat]
      have hmem := canonOfFlat_get_mem j.isLt (data.length + 1)
      rw [show data.length + 2 + (j : Nat) = data.length + 1 + 1 + (j : Nat) by omega]
      exact hmem
  obtain ⟨hready, -, hedges⟩ := buildGraph_ok_char h
  refine ⟨hres, ?_⟩
  intro e he href
  rw [hedges] at he
  rcases List.mem_append.mp he with h1 | h2
  · obtain ⟨⟨hb1, hb2⟩, -⟩ := edgesSpec_bound h1
    simp only [isRefEdge, Bool.and_eq_true, decide_eq_true_eq] at href
    omega
  · have hmem := undirDedup_subset h2
    obtain ⟨p, hp, hsome⟩ := List.mem_filterMap.mp hmem
    cases hfk : p.2.foreignKeyReference with
    | none =>
      rw [hfk] at hsome
      simp at hsome
    | some fk =>
      rw [hfk] at hsome
      have hqe : (lookup0 (pass1 data).canonicalColumns (p.1 ++ p.2.columnName),
          lookup0 (pass1 data).canonicalColumns (fk.1 ++ fk.2)) = e := by
        simpa using hsome
      obtain ⟨j, hj⟩ := List.mem_iff_get.mp hp
      refine ⟨j, fk, ?_, ?_, ?_⟩
      · rw [hj]
        exact hfk
      · have hown := hres j
        rw [hj] at hown
        have hlk := (dictGet_ok_facts hown).2.1
        rw [← hqe]
        exact hlk
      · have hrdy := hready p hp fk hfk
        have hget := dictGet_of_hasKey hrdy.2
        rw [← hqe]
        exact hget

/-- Witness for C7: a document with pairwise distinct concatenated keys and
one reference. -/
theorem canonical_key_resolution_witness :
    (keyList w7doc).Nodup
    ∧ buildGraph w7doc = Except.ok w7G
    ∧ (∀ j : Fin (flatColumns w7doc).length,
        dictGet (pass1 w7doc).canonicalColumns
          (((flatColumns w7doc).get j).1 ++ ((flatColumns w7doc).get j).2.columnName)
          = Except.ok (w7doc.length + 2 + (j : Nat))) := by
  have hk : (keyList w7doc).Nodup := by decide
  have hb : buildGraph w7doc = Except.ok w7G := by rfl
  exact ⟨hk, hb, (canonical_key_resolution w7doc w7G hk hb).1⟩

/-- Counterexample to C7 as stated: the pairs ("ab", "c") and ("a", "bc")
are distinct, yet both concatenate to the key "abc", so after pass 1 on
c7doc both resolve to the same registry entry — node 5, the column of
table "a" — although the column of ("ab", "c") is node 4. -/
theorem canonical_key_collision_counterexample :
    (("ab", "c") ≠ (("a" : String), ("bc" : String)))
    ∧ ("ab" ++ "c" = "a" ++ "bc")
    ∧ dictGet (pass1 c7doc).canonicalColumns ("ab" ++ "c") = Except.ok 5
    ∧ dictGet (pass1 c7doc).canonicalColumns ("a" ++ "bc") = Except.ok 5
    ∧ (4, NodeData.column "c" "int" false) ∈ (pass1 c7doc).G.nodes := by
  refine ⟨by decide, by decide, by rfl, by rfl, by decide⟩

/-- Claim C8 (amended): in every successful build, the number of References
edges equals the number of distinct unordered (referencing node, referenced
node) pairs that the non-null foreignKeyReference entries resolve to; two
entries yielding the same unordered pair (such as two columns referencing
each other) are stored as one undirected edge. -/
theorem references_edge_count (data : SchemaDocument) (G : Graph)
    (h : buildGraph data = Except.ok G) :
    (G.edges.filter (isRefEdge data.length)).length
      = (undirDedup [] (resPairsOf (pass1 data).canonicalColumns
          (flatColumns data))).length := by
  obtain ⟨hready, -, hedges⟩ := buildGraph_ok_char h
  rw [hedges, List.filter_append]
  have h1 : (edgesSpec 0 (data.length + 1) data).filter (isRefEdge data.length)
      = [] := by
    rw [List.filter_eq_nil_iff]
    intro e he
    obtain ⟨⟨hb1, hb2⟩, -⟩ := edgesSpec_bound he
    simp only [isRefEdge, Bool.and_eq_true, decide_eq_true_eq, not_and]
    omega
  have h2 : (undirDedup [] (resPairsOf (pass1 data).canonicalColumns
      (flatColumns data))).filter (isRefEdge data.length)
      = undirDedup [] (resPairsOf (pass1 data).canonicalColumns
          (flatColumns data)) := by
    rw [List.filter_eq_self]
    intro e he
    obtain ⟨⟨b1a, -⟩, b2a, -⟩ := resPairs_endpoint_bound hready (undirDedup_subset he)
    simp only [isRefEdge, Bool.and_eq_true, decide_eq_true_eq]
    omega
  rw [h1, h2, List.nil_append]

/-- Witness for C8: one reference, one References edge. -/
theorem references_edge_count_witness :
    buildGraph w8doc = Except.ok w8G
    ∧ (w8G.edges.filter (isRefEdge w8doc.length)).length
        = (undirDedup [] (resPairsOf (pass1 w8doc).canonicalColumns
            (flatColumns w8doc))).length
    ∧ (w8G.edges.filter (isRefEdge w8doc.length)).length = 1 := by
  have hb : buildGraph w8doc = Except.ok w8G := by rfl
  exact ⟨hb, references_edge_count w8doc w8G hb, by decide⟩

/-- Counterexample to C8 as stated: in c8doc the two columns reference each
other, so the document holds two non-null foreignKeyReference entries but
the undirected graph stores a single References edge. -/
theorem references_count_counterexample :
    buildGraph c8doc = Except.ok c8G
    ∧ fkCount c8doc = 2
    ∧ (c8G.edges.filter (isRefEdge c8doc.length)).length = 1
    ∧ ¬ (c8G.edges.filter (isRefEdge c8doc.length)).length = fkCount c8doc := by
  refine ⟨by rfl, by decide, by decide, by decide⟩

/-- Claim C2 (behaviour of the code at the failing input): a
foreignKeyReference naming a table absent from the document makes the build
fail with the plain KeyError of the Python dict subscript
canonicalColumns[reference_column_], carrying the concatenated key — the
code has no UnresolvedReferenceError; no graph value is returned. -/
theorem unresolved_reference_raises_keyerror :
    buildGraph c2doc = Except.error (PyError.keyError ("missing" ++ "id")) := by rfl

/-- Claim C4 (behaviour of the code at the failing inputs): with no newline
in the text, the slice of line 157 silently returns the input minus its
last character; with exactly one newline it silently returns the empty
string; the code never raises an ExtractionError. With at least two
newlines the slice does return the substring strictly between the first
and the last newline. -/
theorem extraction_never_fails :
    extractPayload "abc" = "ab"
    ∧ extractPayload "a\nb" = ""
    ∧ extractPayload "x\npayload\ny" = "payload" := by
  refine ⟨by rfl, by rfl, by rfl⟩

/-- Claim C5 (behaviour of the code at the failing inputs): a table record
without a columns key fails with KeyError("columns"); a column record with
every key except foreignKeyReference passes pass 1 and fails only in pass 2
with KeyError("foreignKeyReference"); a payload that is not an array of
records fails with a TypeError from subscripting a string — the code has no
SchemaParseError. -/
theorem parse_missing_field_raises_keyerror :
    parseJsonData c5payloadA = Except.error (PyError.keyError "columns")
    ∧ parseJsonData c5payloadB = Except.error (PyError.keyError "foreignKeyReference")
    ∧ parseJsonData c5payloadC = Except.error PyError.typeError := by
  refine ⟨by rfl, by rfl, by rfl⟩

/-- Claim C6 (behaviour of the code at the failing input): in c6doc two
columns of table "t" are both named "c"; the second dict assignment to
canonicalColumns["tc"] silently overwrites the first, so the key resolves
to node 4 (the second column) and the reference from column "d" produces
the edge (5, 4) — the first column, node 3, keeps no registry entry and the
code raises no DuplicateKeyError. -/
theorem duplicate_key_is_overwritten :
    buildGraph c6doc = Except.ok c6G
    ∧ dictGet (pass1 c6doc).canonicalColumns ("t" ++ "c") = Except.ok 4
    ∧ (5, 4) ∈ c6G.edges
    ∧ (3, NodeData.column "c" "int" false) ∈ c6G.nodes
    ∧ (pass1 c6doc).canonicalColumns = [("tc", 4), ("td", 5)] := by
  refine ⟨by rfl, by rfl, by decide, by decide, by rfl⟩
